import Mathlib

/-!
Verification development for the ultra-compact-crypto repository.

The repository implements a pipeline
  plaintext --gzip--> compressed --AES-256-CBC--> ciphertext --base62--> token
and its inverse.  The encryption direction lives in the bash script
(src/unnamed/part_000, first document); the decryption direction lives in
src/index.js (first document, the CryptoJS variant), src/_index.js and two
further variants.

This file shallowly embeds the pipeline:
 * the base62 codec, hex conversions and the orchestration logic are
   translated directly from the JavaScript / bash / python source;
 * the external library primitives the source merely calls (SHA-256, MD5,
   AES-256-CBC via openssl / CryptoJS, gzip via zlib) are abstracted as a
   structure of functions together with the contracts those libraries
   guarantee (digest lengths, cipher round-trip, gzip framing); theorems
   quantify over every instance of the structure, and an executable toy
   instance witnesses satisfiability;
 * the UTF-8 codec used on the text boundary (TextEncoder, the strict
   CryptoJS Utf8 stringifier, Node's lossy Buffer.toString) is implemented
   concretely, since the claims depend on its byte-level behaviour.

Bytes are modelled as Nat with explicit < 256 bounds where they matter.
-/

/-- The 62-character alphabet of the codec, from base62Decode in
src/index.js (lines 124-142) and the python encoder in the bash script. -/
def chars62 : List Char :=
  "0123456789abcdefghijklmnopqrstuvwxyzABCDEFGHIJKLMNOPQRSTUVWXYZ".toList

/-- Position of a character in a list, the semantics of the JavaScript
String.indexOf call in base62Decode (none stands for the -1 result). -/
def idxOfChar : List Char → Char → Option Nat
  | [], _ => none
  | x :: xs, c => if x = c then some 0 else (idxOfChar xs c).map (· + 1)

/-- Digit-to-character mapping of the python encoder (chars[n % 62]). -/
def digitChar62 (d : Nat) : Char := chars62.getD d ' '

/-- Hex digit characters, as produced by BigInt.prototype.toString(16)
(lowercase) in base62Decode. -/
def hexChars : List Char := "0123456789abcdef".toList

/-- One hex digit of JavaScript toString(16). -/
def hexChar (d : Nat) : Char := hexChars.getD d ' '

/-- Numeric value of a hex digit as parseInt(-, 16) reads it (upper or
lower case); characters outside the hex alphabet have no value.  The
ranges are the code points of 0-9, a-f and A-F. -/
def hexDigitVal (c : Char) : Option Nat :=
  if 48 ≤ c.toNat ∧ c.toNat ≤ 57 then some (c.toNat - 48)
  else if 97 ≤ c.toNat ∧ c.toNat ≤ 102 then some (c.toNat - 97 + 10)
  else if 65 ≤ c.toNat ∧ c.toNat ≤ 70 then some (c.toNat - 65 + 10)
  else none

/-- Whether a character is a hex digit in the sense of hexDigitVal. -/
def isHexDigitChar (c : Char) : Bool := (hexDigitVal c).isSome

/-- Fuelled digit loop of BigInt.prototype.toString(16): most significant
digit first, no digits at all for zero.  The fuel only bounds the
recursion depth; n / 16 < n keeps every call with fuel at least n. -/
def hexDigitsAux : Nat → Nat → List Char
  | 0, _ => []
  | fuel + 1, n =>
    if n = 0 then [] else hexDigitsAux fuel (n / 16) ++ [hexChar (n % 16)]

/-- result.toString(16) of base62Decode: minimal lowercase hex rendering
of a natural number, with the single digit 0 for zero. -/
def natToHex (n : Nat) : List Char :=
  if n = 0 then ['0'] else hexDigitsAux n n

/-- The odd-length left-pad of base62Decode:
if (hex.length % 2 !== 0) hex = "0" + hex. -/
def padEven (h : List Char) : List Char :=
  if h.length % 2 = 1 then '0' :: h else h

/-- parseInt(-, 16) on a two-character chunk: JavaScript parses the longest
valid prefix, and a chunk with no valid prefix becomes NaN, which the
Uint8Array store coerces to 0. -/
def parseHexPair (c1 c2 : Char) : Nat :=
  match hexDigitVal c1 with
  | none => 0
  | some v1 =>
    match hexDigitVal c2 with
    | none => v1
    | some v2 => 16 * v1 + v2

/-- hexToBytes from src/index.js (lines 147-153).  The loop walks the hex
string two characters at a time; on an odd-length input the final lone
nibble is written past the end of the Uint8Array(hex.length / 2) and is
silently dropped, which the single-character case mirrors. -/
def hexToBytes : List Char → List Nat
  | [] => []
  | [_] => []
  | c1 :: c2 :: rest => parseHexPair c1 c2 :: hexToBytes rest

/-- padStart(2, "0") of bytesToHex: left-pad to at least two characters. -/
def padStart2 (h : List Char) : List Char :=
  if h.length ≥ 2 then h else List.replicate (2 - h.length) '0' ++ h

/-- One byte of bytesToHex: b.toString(16).padStart(2, "0"). -/
def byteToHexPair (b : Nat) : List Char := padStart2 (natToHex b)

/-- bytesToHex from src/index.js (lines 158-162). -/
def bytesToHex (l : List Nat) : List Char := (l.map byteToHexPair).flatten

/-- Big-endian value of a byte sequence, the implicit integer reading
both codecs share (the token is the base-62 rendering of this value). -/
def beVal (l : List Nat) : Nat := l.foldl (fun a b => a * 256 + b) 0

/-- Value of a hex string, as python int(hex, 16) computes it on the
all-hex-digit strings xxd emits. -/
def hexVal (l : List Char) : Nat :=
  l.foldl (fun a c => a * 16 + (hexDigitVal c).getD 0) 0

/-- python int(hex, 16) of the bash encoder: fails (ValueError) on the
empty string and on strings with a non-hex character, otherwise yields
the value.  (python also tolerates 0x prefixes and whitespace, which the
xxd-produced inputs of this script never contain.) -/
def pyIntHex (l : List Char) : Option Nat :=
  if l ≠ [] ∧ l.all isHexDigitChar then some (hexVal l) else none

/-- Fuelled division loop of the python base62 encoder:
while n > 0: result = chars[n % 62] + result; n //= 62. -/
def b62digits : Nat → Nat → List Char
  | 0, _ => []
  | fuel + 1, n =>
    if n = 0 then [] else b62digits fuel (n / 62) ++ [digitChar62 (n % 62)]

/-- base62_encode from the bash script (src/unnamed/part_000, lines
82-94): reads its hex-string argument as an integer, renders it in base
62 and prints the literal character 0 when the loop produced nothing.
Fails (none) exactly when python int(hex, 16) raises. -/
def base62EncodeHex (hex : List Char) : Option (List Char) :=
  (pyIntHex hex).map fun n =>
    let r := b62digits n n
    if r = [] then ['0'] else r

/-- Byte-level base62 encoding: the bash pipeline feeds base62_encode the
xxd -p hex dump of the byte stream. -/
def base62Encode (bytes : List Nat) : Option (List Char) :=
  base62EncodeHex (bytesToHex bytes)

/-- Digit-accumulation loop of base62Decode: result = result * 62 + value,
throwing on the first character absent from the alphabet (the error
carries the offending character). -/
def base62DecodeNat : List Char → Nat → Except Char Nat
  | [], acc => .ok acc
  | c :: cs, acc =>
    match idxOfChar chars62 c with
    | some v => base62DecodeNat cs (acc * 62 + v)
    | none => .error c

/-- base62Decode from src/index.js (lines 124-142): accumulate the base-62
value, render it in hex, left-pad with one zero nibble when the hex
length is odd. -/
def base62Decode (s : List Char) : Except Char (List Char) :=
  (base62DecodeNat s 0).map fun n => padEven (natToHex n)

/-- Digit table of the specification: 0-9 are 0-9, a-z are 10-35,
A-Z are 36-61 (claim C3's reading of the alphabet). -/
def specDigitVal (c : Char) : Option Nat :=
  if 48 ≤ c.toNat ∧ c.toNat ≤ 57 then some (c.toNat - 48)
  else if 97 ≤ c.toNat ∧ c.toNat ≤ 122 then some (c.toNat - 97 + 10)
  else if 65 ≤ c.toNat ∧ c.toNat ≤ 90 then some (c.toNat - 65 + 36)
  else none

/-- Positional (most-significant-first) base-62 value, the way claim C3
words it: the value of the string read as base-62 digits. -/
def specB62Val : List Char → Nat
  | [] => 0
  | c :: rest => (specDigitVal c).getD 0 * 62 ^ rest.length + specB62Val rest

/-- Continuation-byte test of strict UTF-8 decoding. -/
def isCont (b : Nat) : Bool := 0x80 ≤ b && b < 0xC0

/-- One step of UTF-8 decoding, shared by the strict decoder (the
CryptoJS Utf8 stringifier, which throws on malformed data) and the lossy
decoder (Node Buffer.toString).  none means the input is exhausted;
some (none, rest) means a malformed sequence was met (the lossy decoder
skips one byte, a simplification that no claim observes, since the strict
decoder treats any malformed step as failure and the lossy decoder is
only ever reasoned about on well-formed input). -/
def utf8Step : List Nat → Option (Option Char × List Nat)
  | [] => none
  | b0 :: rest =>
    if b0 < 0x80 then some (some (Char.ofNat b0), rest)
    else if b0 < 0xC2 then some (none, rest)
    else if b0 < 0xE0 then
      match rest with
      | b1 :: rest2 =>
        if isCont b1 then
          some (some (Char.ofNat ((b0 - 0xC0) * 64 + (b1 - 0x80))), rest2)
        else some (none, rest)
      | [] => some (none, [])
    else if b0 < 0xF0 then
      match rest with
      | b1 :: b2 :: rest2 =>
        if isCont b1 && isCont b2 then
          let v := (b0 - 0xE0) * 4096 + (b1 - 0x80) * 64 + (b2 - 0x80)
          if 0x800 ≤ v ∧ (v < 0xD800 ∨ 0xE000 ≤ v) then
            some (some (Char.ofNat v), rest2)
          else some (none, rest)
        else some (none, rest)
      | _ => some (none, rest)
    else if b0 < 0xF5 then
      match rest with
      | b1 :: b2 :: b3 :: rest2 =>
        if isCont b1 && isCont b2 && isCont b3 then
          let v := (b0 - 0xF0) * 262144 + (b1 - 0x80) * 4096 +
            (b2 - 0x80) * 64 + (b3 - 0x80)
          if 0x10000 ≤ v ∧ v ≤ 0x10FFFF then
            some (some (Char.ofNat v), rest2)
          else some (none, rest)
        else some (none, rest)
      | _ => some (none, rest)
    else some (none, rest)

/-- Fuelled strict UTF-8 decoder (each step consumes at least one byte,
so fuel equal to the input length always suffices). -/
def utf8DecAux : Nat → List Nat → Option (List Char)
  | 0, l => if l = [] then some [] else none
  | fuel + 1, l =>
    match utf8Step l with
    | none => some []
    | some (some c, rest) => (utf8DecAux fuel rest).map (c :: ·)
    | some (none, _) => none

/-- Strict UTF-8 decoding, the behaviour of the CryptoJS Utf8 stringifier
used by decrypt (throws, i.e. none, on any malformed sequence). -/
def utf8Dec (l : List Nat) : Option (List Char) := utf8DecAux l.length l

/-- Fuelled lossy UTF-8 decoder: malformed sequences become U+FFFD. -/
def utf8LossyAux : Nat → List Nat → List Char
  | 0, _ => []
  | fuel + 1, l =>
    match utf8Step l with
    | none => []
    | some (some c, rest) => c :: utf8LossyAux fuel rest
    | some (none, rest) => Char.ofNat 0xFFFD :: utf8LossyAux fuel rest

/-- Lossy UTF-8 decoding, the behaviour of Node Buffer.toString("utf8")
used after gunzip (never throws; replacement character on malformed
input).  It agrees with the strict decoder whenever that one succeeds. -/
def utf8Lossy (l : List Nat) : List Char := utf8LossyAux l.length l

/-- UTF-8 encoding of one character (TextEncoder / the byte sequence
echo -n writes for the shell text being encrypted). -/
def utf8EncChar (c : Char) : List Nat :=
  let n := c.toNat
  if n < 0x80 then [n]
  else if n < 0x800 then [0xC0 + n / 64, 0x80 + n % 64]
  else if n < 0x10000 then
    [0xE0 + n / 4096, 0x80 + n / 64 % 64, 0x80 + n % 64]
  else
    [0xF0 + n / 262144, 0x80 + n / 4096 % 64, 0x80 + n / 64 % 64,
      0x80 + n % 64]

/-- UTF-8 encoding of a character sequence. -/
def utf8Enc (l : List Char) : List Nat := (l.map utf8EncChar).flatten

/-- External library primitives the source calls but does not implement:
SHA-256 and MD5 (openssl dgst / crypto / CryptoJS), AES-256-CBC with
PKCS#7 padding (openssl enc on the encryption side, CryptoJS AES.decrypt
on the decryption side) and the gzip container (gzip / zlib).  Fields
carry the contracts those libraries guarantee and the pipeline relies on.
aesDec models CryptoJS AES.decrypt followed by its Pkcs7 unpad, which is
total: the unpad strips as many bytes as the last byte dictates without
validating them, so no padding error is ever raised.  Two compression
entries mirror the two ways the bash script invokes gzip: gzip is the
stdin form (echo -n TEXT | gzip -c), whose header carries no name and a
zero mtime and which therefore depends on the payload bytes alone;
gzipFile is the file-operand form (gzip -c FILE), whose header stores
the operand's FNAME and MTIME, so its output depends on the file's name
and modification time as well as its bytes.  Both produce well-formed
gzip streams that gunzip inverts. -/
structure Prims where
  sha256 : String → List Nat
  md5 : String → List Nat
  aesEnc : List Nat → List Nat → List Nat → List Nat
  aesDec : List Nat → List Nat → List Nat → List Nat
  gzip : List Nat → List Nat
  gzipFile : String → Nat → List Nat → List Nat
  gunzip : List Nat → Option (List Nat)
  sha256_len : ∀ s, (sha256 s).length = 32
  sha256_bytes : ∀ s, ∀ b ∈ sha256 s, b < 256
  md5_len : ∀ s, (md5 s).length = 16
  md5_bytes : ∀ s, ∀ b ∈ md5 s, b < 256
  aesEnc_len : ∀ k iv d, (aesEnc k iv d).length = 16 * (d.length / 16 + 1)
  aesEnc_bytes : ∀ k iv d, (∀ b ∈ d, b < 256) → ∀ b ∈ aesEnc k iv d, b < 256
  aes_round : ∀ k iv d, aesDec k iv (aesEnc k iv d) = d
  gzip_magic : ∀ d, ∃ rest, gzip d = 0x1F :: 0x8B :: 0x08 :: rest
  gzip_bytes : ∀ d, (∀ b ∈ d, b < 256) → ∀ b ∈ gzip d, b < 256
  gunzip_gzip : ∀ d, gunzip (gzip d) = some d
  gzipFile_magic : ∀ name mtime d, ∃ rest,
    gzipFile name mtime d = 0x1F :: 0x8B :: 0x08 :: rest
  gunzip_gzipFile : ∀ name mtime d, gunzip (gzipFile name mtime d) = some d

/-- deriveKeyAndIV of the CryptoJS variants (src/_index.js lines 120-128,
src/index.js lines 217-226): key is the hex-parsed SHA-256 digest of the
password, iv the hex-parsed MD5 digest.  The digest-to-hex-to-bytes trip
(digest("hex") followed by enc.Hex.parse / Buffer.from(-, "hex")) is kept
explicit. -/
def deriveKeyAndIVM (P : Prims) (pw : String) : List Nat × List Nat :=
  (hexToBytes (bytesToHex (P.sha256 pw)), hexToBytes (bytesToHex (P.md5 pw)))

/-- deriveKeyAndIV of the environment-branching variant (src/unnamed/
part_000, second document, lines 247-262): in Node the iv is the MD5
digest, in the browser (where that file's md5 throws) it is
keyHex.substring(0, 32), the first half of the SHA-256 hex digest. -/
def deriveKeyAndIVVariant (P : Prims) (isNode : Bool) (pw : String) :
    List Nat × List Nat :=
  let keyHex := bytesToHex (P.sha256 pw)
  let ivHex := if isNode then bytesToHex (P.md5 pw) else keyHex.take 32
  (hexToBytes keyHex, hexToBytes ivHex)

/-- isLikelyGzipped from src/index.js (lines 441-451): at least three
bytes and the prefix 1F 8B 08 (gzip magic plus the deflate method byte). -/
def isLikelyGzipped : List Nat → Bool
  | b0 :: b1 :: b2 :: _ => b0 == 0x1F && b1 == 0x8B && b2 == 0x08
  | _ => false

/-- Code points removed by cleanDecryptedData's regex character class
[\0\x01-\x08\x0B\x0C\x0E-\x1F] (src/index.js lines 456-462). -/
def strippedB (c : Char) : Bool :=
  c.toNat ≤ 8 || c.toNat == 0x0B || c.toNat == 0x0C ||
    (0x0E ≤ c.toNat && c.toNat ≤ 0x1F)

/-- cleanDecryptedData (src/index.js lines 456-462): remove NUL and the
control characters of the class above, keeping tab, LF and CR. -/
def cleanDecryptedData (l : List Char) : List Char :=
  l.filter fun c => !strippedB c

/-- decompressData in Node (src/index.js lines 422-436): gunzip the bytes
(the Latin1 string handed in converts back to the same bytes through
Buffer.from(-, "binary")), then render lossily as UTF-8 text; a zlib
error (none) propagates to the caller as a thrown exception. -/
def decompressData (P : Prims) (d : List Nat) : Option (List Char) :=
  (P.gunzip d).map utf8Lossy

/-- Latin1 rendering of decrypted bytes: each byte becomes the code point
of the same value. -/
def latin1OfBytes (d : List Nat) : List Char := d.map Char.ofNat

/-- Tail of decrypt after the early UTF-8 return (src/index.js lines
500-514): take the Latin1 rendering, and only when it looks gzipped try
to decompress, falling back to the cleaned Latin1 text when decompression
throws; otherwise return the cleaned Latin1 text directly. -/
def decryptTail (P : Prims) (d : List Nat) : Except Char (List Char) :=
  let latin1 := latin1OfBytes d
  if isLikelyGzipped d then
    match decompressData P d with
    | some txt => .ok (cleanDecryptedData txt)
    | none => .ok (cleanDecryptedData latin1)
  else .ok (cleanDecryptedData latin1)

/-- decrypt from src/index.js (lines 467-519), Node path: base62-decode
the token (an invalid character aborts the whole call), hex-to-bytes,
derive key and iv from the password, AES-CBC-decrypt, then first try the
strict UTF-8 stringifier and return its cleaned result when it succeeds
nonempty; on a UTF-8 exception or an empty result fall through to
decryptTail. -/
def decryptM (P : Prims) (token : List Char) (pw : String) :
    Except Char (List Char) :=
  match base62Decode token with
  | .error e => .error e
  | .ok hex =>
    let encryptedBytes := hexToBytes hex
    let kiv := deriveKeyAndIVM P pw
    let d := P.aesDec kiv.1 kiv.2 encryptedBytes
    match utf8Dec d with
    | some r => if r.length > 0 then .ok (cleanDecryptedData r) else decryptTail P d
    | none => decryptTail P d

/-- What decrypt computes when it never consults the decompressor: the
cleaned strict-UTF-8 text when that decoder succeeds nonempty, otherwise
the cleaned Latin1 rendering.  Used to state claim C6; note the
definition mentions no gunzip at all. -/
def textOnlyResult (d : List Nat) : List Char :=
  match utf8Dec d with
  | some r =>
    if r.length > 0 then cleanDecryptedData r
    else cleanDecryptedData (latin1OfBytes d)
  | none => cleanDecryptedData (latin1OfBytes d)

/-- File branch of the bash encryption script (src/unnamed/part_000 line
132): gzip -c FILE (whose header stores the operand's FNAME and MTIME,
so the compressed block — and hence the token — depends on the file's
name and modification time, not only its bytes), then AES-256-CBC under
the SHA-256 key and MD5 iv derived from the password, hex-dump,
base62-encode. -/
def encryptFileM (P : Prims) (name : String) (mtime : Nat)
    (fileBytes : List Nat) (pw : String) : Option (List Char) :=
  let key := hexToBytes (bytesToHex (P.sha256 pw))
  let iv := hexToBytes (bytesToHex (P.md5 pw))
  base62EncodeHex (bytesToHex (P.aesEnc key iv (P.gzipFile name mtime fileBytes)))

/-- Text branch of the bash encryption script (src/unnamed/part_000 line
101): the same key/iv/AES/base62 pipeline applied to the stdin-gzip
compression (no stored name, zero mtime) of the UTF-8 bytes echo -n
writes for the text argument. -/
def encryptM (P : Prims) (p : List Char) (pw : String) : Option (List Char) :=
  let key := hexToBytes (bytesToHex (P.sha256 pw))
  let iv := hexToBytes (bytesToHex (P.md5 pw))
  base62EncodeHex (bytesToHex (P.aesEnc key iv (P.gzip (utf8Enc p))))

/-- PKCS#7 padding to the 16-byte AES block size, the padding openssl enc
applies before encryption. -/
def pkcs7Pad (d : List Nat) : List Nat :=
  let p := 16 - d.length % 16
  d ++ List.replicate p p

/-- The CryptoJS Pkcs7 unpad: read the last byte and drop that many bytes
without validating them. -/
def cjUnpad (l : List Nat) : List Nat :=
  l.take (l.length - (l.getLast?.getD 0))

/-- The ciphertext the encryption pipeline produces for a given byte
payload and password: AES-256-CBC under the SHA-256 key and MD5 iv. -/
def ctOf (P : Prims) (data : List Nat) (pw : String) : List Nat :=
  P.aesEnc (hexToBytes (bytesToHex (P.sha256 pw)))
    (hexToBytes (bytesToHex (P.md5 pw))) (P.gzip data)

/-- Decidable equality of decrypt results, used to evaluate the pipeline
on concrete inputs. -/
instance {ε α : Type} [DecidableEq ε] [DecidableEq α] :
    DecidableEq (Except ε α)
  | .error a, .error b =>
    if h : a = b then .isTrue (by rw [h])
    else .isFalse fun hc => by
      cases hc
      exact h rfl
  | .error _, .ok _ => .isFalse fun hc => by cases hc
  | .ok _, .error _ => .isFalse fun hc => by cases hc
  | .ok a, .ok b =>
    if h : a = b then .isTrue (by rw [h])
    else .isFalse fun hc => by
      cases hc
      exact h rfl

/-- A concrete, executable instance of the primitive interface, showing
that the contracts are satisfiable: constant digests of the advertised
lengths, a cipher that just applies PKCS#7 padding (undone by the blind
CryptoJS unpad), a stdin gzip that prepends the 1F 8B 08 frame plus a
zero flag byte, and a file gzip whose frame (flag byte 8) additionally
records the mtime and a length-prefixed name, so that its output genuinely
depends on name and mtime; gunzip accepts exactly those two frames. -/
def toyPrims : Prims where
  sha256 := fun _ => List.replicate 32 7
  md5 := fun _ => List.replicate 16 3
  aesEnc := fun _ _ d => pkcs7Pad d
  aesDec := fun _ _ c => cjUnpad c
  gzip := fun d => 0x1F :: 0x8B :: 0x08 :: 0x00 :: d
  gzipFile := fun name mtime d =>
    0x1F :: 0x8B :: 0x08 :: 0x08 :: mtime :: (utf8Enc name.toList).length ::
      (utf8Enc name.toList ++ d)
  gunzip := fun l =>
    match l with
    | b0 :: b1 :: b2 :: b3 :: rest =>
      if b0 = 0x1F ∧ b1 = 0x8B ∧ b2 = 0x08 then
        if b3 = 0 then some rest
        else if b3 = 8 then
          match rest with
          | _ :: len :: rest2 => some (rest2.drop len)
          | _ => none
        else none
      else none
    | _ => none
  sha256_len := fun _ => by simp
  sha256_bytes := fun _ b hb => by
    have := List.eq_of_mem_replicate hb
    omega
  md5_len := fun _ => by simp
  md5_bytes := fun _ b hb => by
    have := List.eq_of_mem_replicate hb
    omega
  aesEnc_len := fun _ _ d => by
    simp only [pkcs7Pad, List.length_append, List.length_replicate]
    omega
  aesEnc_bytes := fun _ _ d hd b hb => by
    rcases List.mem_append.1 hb with h | h
    · exact hd b h
    · have := List.eq_of_mem_replicate h
      omega
  aes_round := fun _ _ d => by
    have hp1 : 1 ≤ 16 - d.length % 16 := by omega
    have hrep : List.replicate (16 - d.length % 16) (16 - d.length % 16)
        = List.replicate (16 - d.length % 16 - 1) (16 - d.length % 16)
          ++ [16 - d.length % 16] := by
      rw [← List.replicate_succ']
      congr 1
      omega
    have hlast : (pkcs7Pad d).getLast? = some (16 - d.length % 16) := by
      rw [pkcs7Pad, hrep, ← List.append_assoc, List.getLast?_concat]
    show cjUnpad (pkcs7Pad d) = d
    unfold cjUnpad
    rw [hlast, pkcs7Pad]
    simp only [Option.getD_some, List.length_append, List.length_replicate]
    have hsub : d.length + (16 - d.length % 16) - (16 - d.length % 16)
        = d.length := by omega
    rw [hsub]
    exact List.take_left d _
  gzip_magic := fun d => ⟨0x00 :: d, rfl⟩
  gzip_bytes := fun d hd b hb => by
    rcases hb with _ | ⟨_, _ | ⟨_, _ | ⟨_, _ | ⟨_, h⟩⟩⟩⟩ <;> first | omega | exact hd _ (by assumption)
  gunzip_gzip := fun d => by simp
  gzipFile_magic := fun name mtime d =>
    ⟨0x08 :: mtime :: (utf8Enc name.toList).length :: (utf8Enc name.toList ++ d),
      rfl⟩
  gunzip_gzipFile := fun name mtime d => by
    simp [List.drop_left]

/-- The plaintext of the C1 counterexample: a, the control byte 0x01, b. -/
def pC1 : List Char := ['a', Char.ofNat 1, 'b']

/-- Ciphertext of the C2 counterexample: gzip magic, a nonzero flag byte
that makes gunzip reject the stream, and PKCS#7 padding. -/
def ctC2 : List Nat := 0x1F :: 0x8B :: 0x08 :: 0x01 :: List.replicate 12 12

/-- Token of the C2 counterexample. -/
def tokC2 : List Char := (base62Encode ctC2).getD []

/-- PKCS#7 padding always pads to the next multiple of the block size. -/
lemma pkcs7Pad_length (d : List Nat) :
    (pkcs7Pad d).length = 16 * (d.length / 16 + 1) := by
  simp only [pkcs7Pad, List.length_append, List.length_replicate]
  omega

/-- Blind PKCS#7 unpadding inverts PKCS#7 padding. -/
lemma cjUnpad_pkcs7Pad (d : List Nat) : cjUnpad (pkcs7Pad d) = d := by
  have hp1 : 1 ≤ 16 - d.length % 16 := by omega
  have hrep : List.replicate (16 - d.length % 16) (16 - d.length % 16)
      = List.replicate (16 - d.length % 16 - 1) (16 - d.length % 16)
        ++ [16 - d.length % 16] := by
    rw [← List.replicate_succ']
    congr 1
    omega
  have hlast : (pkcs7Pad d).getLast? = some (16 - d.length % 16) := by
    rw [pkcs7Pad, hrep, ← List.append_assoc, List.getLast?_concat]
  unfold cjUnpad
  rw [hlast, pkcs7Pad]
  simp only [Option.getD_some, List.length_append, List.length_replicate]
  have hsub : d.length + (16 - d.length % 16) - (16 - d.length % 16)
      = d.length := by omega
  rw [hsub]
  exact List.take_left d _

lemma beVal_foldl (acc : Nat) (l : List Nat) :
    l.foldl (fun a b => a * 256 + b) acc = acc * 256 ^ l.length + beVal l := by
  induction l generalizing acc with
  | nil => simp [beVal]
  | cons b t ih =>
    simp only [List.foldl_cons, List.length_cons, beVal]
    rw [ih, ih]
    ring

lemma beVal_cons (a : Nat) (l : List Nat) :
    beVal (a :: l) = a * 256 ^ l.length + beVal l := by
  simpa [beVal] using beVal_foldl a l

lemma beVal_lt (l : List Nat) (h : ∀ b ∈ l, b < 256) :
    beVal l < 256 ^ l.length := by
  induction l with
  | nil => simp [beVal]
  | cons a t ih =>
    have ha : a < 256 := h a (by simp)
    have ht : beVal t < 256 ^ t.length := ih fun b hb => h b (by simp [hb])
    rw [beVal_cons]
    simp only [List.length_cons]
    have h1 : (a + 1) * 256 ^ t.length = a * 256 ^ t.length + 256 ^ t.length := by
      ring
    have h2 : (a + 1) * 256 ^ t.length ≤ 256 * 256 ^ t.length :=
      Nat.mul_le_mul_right _ (by omega)
    have h3 : 256 * 256 ^ t.length = 256 ^ (t.length + 1) := by ring
    omega

lemma hexVal_foldl (acc : Nat) (l : List Char) :
    l.foldl (fun a c => a * 16 + (hexDigitVal c).getD 0) acc
      = acc * 16 ^ l.length + hexVal l := by
  induction l generalizing acc with
  | nil => simp [hexVal]
  | cons c t ih =>
    simp only [List.foldl_cons, List.length_cons, hexVal]
    rw [ih, ih]
    ring

lemma hexVal_cons (c : Char) (l : List Char) :
    hexVal (c :: l) = (hexDigitVal c).getD 0 * 16 ^ l.length + hexVal l := by
  simpa [hexVal] using hexVal_foldl ((hexDigitVal c).getD 0) l

lemma hexVal_append (l1 l2 : List Char) :
    hexVal (l1 ++ l2) = hexVal l1 * 16 ^ l2.length + hexVal l2 := by
  simp only [hexVal, List.foldl_append]
  exact hexVal_foldl _ l2

lemma hexVal_zero_cons (l : List Char) : hexVal ('0' :: l) = hexVal l := by
  rw [hexVal_cons]
  have h0 : (hexDigitVal '0').getD 0 = 0 := by decide
  rw [h0]
  ring

lemma hexDigitVal_lt (c : Char) (v : Nat) (h : hexDigitVal c = some v) :
    v < 16 := by
  unfold hexDigitVal at h
  split_ifs at h with h1 h2 h3 <;> simp_all <;> omega

lemma hexVal_getD_lt (c : Char) : (hexDigitVal c).getD 0 < 16 := by
  cases hv : hexDigitVal c with
  | none => simp
  | some v => simpa using hexDigitVal_lt c v hv

lemma hexVal_lt (l : List Char) : hexVal l < 16 ^ l.length := by
  induction l with
  | nil => simp [hexVal]
  | cons c t ih =>
    rw [hexVal_cons]
    have hc := hexVal_getD_lt c
    calc (hexDigitVal c).getD 0 * 16 ^ t.length + hexVal t
        < (hexDigitVal c).getD 0 * 16 ^ t.length + 16 ^ t.length := by omega
    _ = ((hexDigitVal c).getD 0 + 1) * 16 ^ t.length := by ring
    _ ≤ 16 * 16 ^ t.length := Nat.mul_le_mul_right _ (by omega)
    _ = 16 ^ (c :: t).length := by simp; ring

lemma idxOfChar_isSome_iff (l : List Char) (c : Char) :
    (idxOfChar l c).isSome = true ↔ c ∈ l := by
  induction l with
  | nil => simp [idxOfChar]
  | cons x xs ih =>
    by_cases hx : x = c
    · subst hx
      simp [idxOfChar]
    · simp only [idxOfChar, if_neg hx, List.mem_cons]
      cases h : idxOfChar xs c with
      | none => simp [h] at ih ⊢; tauto
      | some v => simp [h] at ih ⊢; tauto

lemma idxOfChar_lt (l : List Char) (c : Char) (v : Nat)
    (h : idxOfChar l c = some v) : v < l.length := by
  induction l generalizing v with
  | nil => simp [idxOfChar] at h
  | cons x xs ih =>
    by_cases hx : x = c
    · subst hx
      simp [idxOfChar] at h
      simp only [List.length_cons]
      omega
    · simp only [idxOfChar, if_neg hx] at h
      cases h2 : idxOfChar xs c with
      | none => simp [h2] at h
      | some w =>
        simp [h2] at h
        have := ih w h2
        simp only [List.length_cons]
        omega

lemma idxOfChar_getD (l : List Char) (c : Char) (v : Nat)
    (h : idxOfChar l c = some v) : l.getD v ' ' = c := by
  induction l generalizing v with
  | nil => simp [idxOfChar] at h
  | cons x xs ih =>
    by_cases hx : x = c
    · subst hx
      simp [idxOfChar] at h
      subst h
      rfl
    · simp only [idxOfChar, if_neg hx] at h
      cases h2 : idxOfChar xs c with
      | none => simp [h2] at h
      | some w =>
        simp [h2] at h
        subst h
        simpa using ih w h2

lemma idxOfChar_digitChar62 : ∀ d < 62, idxOfChar chars62 (digitChar62 d) = some d := by
  decide

lemma specDigitVal_digitChar62 : ∀ d < 62, specDigitVal (digitChar62 d) = some d := by
  decide

lemma digitChar62_mem : ∀ d < 62, digitChar62 d ∈ chars62 := by
  decide

lemma idxOfChar_spec (c : Char) (v : Nat) (h : idxOfChar chars62 c = some v) :
    specDigitVal c = some v := by
  have hv : v < 62 := by
    have := idxOfChar_lt chars62 c v h
    simpa [chars62] using this
  have hc : c = digitChar62 v := (idxOfChar_getD chars62 c v h).symm
  rw [hc]
  exact specDigitVal_digitChar62 v hv

lemma base62DecodeNat_ok (s : List Char) (acc : Nat)
    (h : ∀ c ∈ s, c ∈ chars62) :
    base62DecodeNat s acc = .ok (acc * 62 ^ s.length + specB62Val s) := by
  induction s generalizing acc with
  | nil => simp [base62DecodeNat, specB62Val]
  | cons c cs ih =>
    have hc : c ∈ chars62 := h c (by simp)
    have hidx : (idxOfChar chars62 c).isSome = true :=
      (idxOfChar_isSome_iff chars62 c).2 hc
    cases hv : idxOfChar chars62 c with
    | none => rw [hv] at hidx; simp at hidx
    | some v =>
      have hspec : specDigitVal c = some v := idxOfChar_spec c v hv
      simp only [base62DecodeNat, hv]
      rw [ih (acc * 62 + v) fun d hd => h d (by simp [hd])]
      simp only [specB62Val, hspec, Option.getD_some, List.length_cons]
      congr 1
      ring

lemma base62DecodeNat_error_iff (s : List Char) (acc : Nat) :
    (∃ e, base62DecodeNat s acc = .error e) ↔ ∃ c ∈ s, c ∉ chars62 := by
  induction s generalizing acc with
  | nil => simp [base62DecodeNat]
  | cons c cs ih =>
    cases hv : idxOfChar chars62 c with
    | none =>
      have hc : c ∉ chars62 := by
        intro hmem
        have := (idxOfChar_isSome_iff chars62 c).2 hmem
        rw [hv] at this
        simp at this
      simp only [base62DecodeNat, hv]
      constructor
      · intro _
        exact ⟨c, by simp, hc⟩
      · intro _
        exact ⟨c, rfl⟩
    | some v =>
      have hc : c ∈ chars62 := by
        have : (idxOfChar chars62 c).isSome = true := by simp [hv]
        exact (idxOfChar_isSome_iff chars62 c).1 this
      simp only [base62DecodeNat, hv]
      rw [ih]
      constructor
      · rintro ⟨d, hd, hnot⟩
        exact ⟨d, by simp [hd], hnot⟩
      · rintro ⟨d, hd, hnot⟩
        rcases List.mem_cons.1 hd with rfl | hd2
        · exact absurd hc hnot
        · exact ⟨d, hd2, hnot⟩

lemma b62digits_mem (fuel n : Nat) : ∀ c ∈ b62digits fuel n, c ∈ chars62 := by
  induction fuel generalizing n with
  | zero => simp [b62digits]
  | succ f ih =>
    by_cases hn : n = 0
    · simp [b62digits, hn]
    · simp only [b62digits, if_neg hn]
      intro c hc
      rcases List.mem_append.1 hc with h | h
      · exact ih (n / 62) c h
      · have : c = digitChar62 (n % 62) := by simpa using h
        rw [this]
        exact digitChar62_mem (n % 62) (Nat.mod_lt _ (by omega))

lemma base62DecodeNat_append (xs ys : List Char) (acc : Nat) :
    base62DecodeNat (xs ++ ys) acc =
      match base62DecodeNat xs acc with
      | .ok m => base62DecodeNat ys m
      | .error e => .error e := by
  induction xs generalizing acc with
  | nil => simp [base62DecodeNat]
  | cons c cs ih =>
    simp only [List.cons_append, base62DecodeNat]
    cases idxOfChar chars62 c with
    | none => rfl
    | some v => exact ih (acc * 62 + v)

lemma b62digits_decode (fuel n acc : Nat) (hf : n ≤ fuel) :
    base62DecodeNat (b62digits fuel n) acc
      = .ok (acc * 62 ^ (b62digits fuel n).length + n) := by
  induction fuel generalizing n acc with
  | zero =>
    have hn : n = 0 := by omega
    simp [b62digits, base62DecodeNat, hn]
  | succ f ih =>
    by_cases hn : n = 0
    · simp [b62digits, hn, base62DecodeNat]
    · have hdiv : n / 62 ≤ f := by
        have h1 : n / 62 < n := Nat.div_lt_self (by omega) (by omega)
        omega
      simp only [b62digits, if_neg hn]
      rw [base62DecodeNat_append]
      rw [ih (n / 62) acc hdiv]
      have hm : n % 62 < 62 := Nat.mod_lt _ (by omega)
      simp only [base62DecodeNat, idxOfChar_digitChar62 (n % 62) hm,
        List.length_append, List.length_cons, List.length_nil]
      congr 1
      have hpow : 62 ^ ((b62digits f (n / 62)).length + (0 + 1))
          = 62 ^ (b62digits f (n / 62)).length * 62 := by
        rw [Nat.zero_add, pow_succ]
      rw [hpow]
      have := Nat.div_add_mod n 62
      ring_nf
      omega

lemma b62digits_zero (fuel : Nat) : b62digits fuel 0 = [] := by
  cases fuel <;> simp [b62digits]

lemma b62digits_ne_nil (fuel n : Nat) (h0 : 0 < n) (hf : n ≤ fuel) :
    b62digits fuel n ≠ [] := by
  cases fuel with
  | zero => omega
  | succ f =>
    simp only [b62digits, if_neg (by omega : ¬n = 0)]
    simp

lemma hexChar_hexDigitVal : ∀ d < 16, hexDigitVal (hexChar d) = some d := by
  decide

lemma hexChar_isHexDigit : ∀ d < 16, isHexDigitChar (hexChar d) = true := by
  decide

lemma hexVal_concat (l : List Char) (c : Char) :
    hexVal (l ++ [c]) = hexVal l * 16 + (hexDigitVal c).getD 0 := by
  rw [hexVal_append]
  simp [hexVal, hexVal_cons]

lemma hexDigitsAux_val (fuel n : Nat) (hf : n ≤ fuel) :
    hexVal (hexDigitsAux fuel n) = n := by
  induction fuel generalizing n with
  | zero =>
    have hn : n = 0 := by omega
    simp [hexDigitsAux, hn, hexVal]
  | succ f ih =>
    by_cases hn : n = 0
    · simp [hexDigitsAux, hn, hexVal]
    · have hdiv : n / 16 ≤ f := by
        have h1 : n / 16 < n := Nat.div_lt_self (by omega) (by omega)
        omega
      simp only [hexDigitsAux, if_neg hn]
      rw [hexVal_concat, ih (n / 16) hdiv]
      have hm : n % 16 < 16 := Nat.mod_lt _ (by omega)
      rw [hexChar_hexDigitVal (n % 16) hm]
      simp only [Option.getD_some]
      omega

lemma hexDigitsAux_valid (fuel n : Nat) :
    ∀ c ∈ hexDigitsAux fuel n, isHexDigitChar c = true := by
  induction fuel generalizing n with
  | zero => simp [hexDigitsAux]
  | succ f ih =>
    by_cases hn : n = 0
    · simp [hexDigitsAux, hn]
    · simp only [hexDigitsAux, if_neg hn]
      intro c hc
      rcases List.mem_append.1 hc with h | h
      · exact ih (n / 16) c h
      · have : c = hexChar (n % 16) := by simpa using h
        rw [this]
        exact hexChar_isHexDigit (n % 16) (Nat.mod_lt _ (by omega))

lemma hexDigitsAux_zero (fuel : Nat) : hexDigitsAux fuel 0 = [] := by
  cases fuel <;> simp [hexDigitsAux]

lemma hexDigitsAux_ne_nil (fuel n : Nat) (h0 : 0 < n) (hf : n ≤ fuel) :
    hexDigitsAux fuel n ≠ [] := by
  cases fuel with
  | zero => omega
  | succ f =>
    simp only [hexDigitsAux, if_neg (by omega : ¬n = 0)]
    simp

lemma hexDigitsAux_bounds (fuel n : Nat) (h0 : 0 < n) (hf : n ≤ fuel) :
    16 ^ ((hexDigitsAux fuel n).length - 1) ≤ n
      ∧ n < 16 ^ (hexDigitsAux fuel n).length := by
  induction fuel generalizing n with
  | zero => omega
  | succ f ih =>
    simp only [hexDigitsAux, if_neg (by omega : ¬n = 0)]
    by_cases hsmall : n < 16
    · have hq : n / 16 = 0 := Nat.div_eq_of_lt hsmall
      rw [hq, hexDigitsAux_zero]
      simp only [List.nil_append, List.length_cons, List.length_nil]
      constructor
      · simpa using h0
      · simpa using hsmall
    · have hq0 : 0 < n / 16 := Nat.div_pos (by omega) (by omega)
      have hqf : n / 16 ≤ f := by
        have h1 : n / 16 < n := Nat.div_lt_self (by omega) (by omega)
        omega
      obtain ⟨hlo, hhi⟩ := ih (n / 16) hq0 hqf
      have hne := hexDigitsAux_ne_nil f (n / 16) hq0 hqf
      have hlen : 1 ≤ (hexDigitsAux f (n / 16)).length := by
        cases h : hexDigitsAux f (n / 16) with
        | nil => exact absurd h hne
        | cons a t => simp
      simp only [List.length_append, List.length_cons, List.length_nil]
      constructor
      · have : 16 ^ ((hexDigitsAux f (n / 16)).length + (0 + 1) - 1)
            = 16 ^ ((hexDigitsAux f (n / 16)).length - 1) * 16 := by
          rw [← pow_succ]
          congr 1
          omega
        rw [this]
        have h16 : 16 ^ ((hexDigitsAux f (n / 16)).length - 1) * 16 ≤ (n / 16) * 16 :=
          Nat.mul_le_mul_right _ hlo
        have := Nat.div_add_mod n 16
        have hmod : n % 16 < 16 := Nat.mod_lt _ (by omega)
        omega
      · have : 16 ^ ((hexDigitsAux f (n / 16)).length + (0 + 1))
            = 16 ^ (hexDigitsAux f (n / 16)).length * 16 := by
          rw [← pow_succ]
        rw [this]
        have h16 : (n / 16 + 1) * 16 ≤ 16 ^ (hexDigitsAux f (n / 16)).length * 16 :=
          Nat.mul_le_mul_right _ (by omega)
        have := Nat.div_add_mod n 16
        have hmod : n % 16 < 16 := Nat.mod_lt _ (by omega)
        omega

lemma natToHex_val (n : Nat) : hexVal (natToHex n) = n := by
  by_cases hn : n = 0
  · subst hn
    decide
  · simp only [natToHex, if_neg hn]
    exact hexDigitsAux_val n n le_rfl

lemma natToHex_valid (n : Nat) : ∀ c ∈ natToHex n, isHexDigitChar c = true := by
  by_cases hn : n = 0
  · subst hn
    decide
  · simp only [natToHex, if_neg hn]
    exact hexDigitsAux_valid n n

lemma natToHex_ne_nil (n : Nat) : natToHex n ≠ [] := by
  by_cases hn : n = 0
  · simp [natToHex, hn]
  · simp only [natToHex, if_neg hn]
    exact hexDigitsAux_ne_nil n n (by omega) le_rfl

lemma natToHex_bounds (n : Nat) (h0 : 0 < n) :
    16 ^ ((natToHex n).length - 1) ≤ n ∧ n < 16 ^ (natToHex n).length := by
  simp only [natToHex, if_neg (by omega : ¬n = 0)]
  exact hexDigitsAux_bounds n n h0 le_rfl

lemma headD_append_of_ne_nil (xs ys : List Char) (d : Char) (h : xs ≠ []) :
    (xs ++ ys).headD d = xs.headD d := by
  cases xs with
  | nil => exact absurd rfl h
  | cons a t => simp

lemma hexChar_ne_zero : ∀ d < 16, 0 < d → hexChar d ≠ '0' := by
  decide

lemma hexDigitsAux_head (fuel n : Nat) (h0 : 0 < n) (hf : n ≤ fuel) :
    (hexDigitsAux fuel n).headD ' ' ≠ '0' := by
  induction fuel generalizing n with
  | zero => omega
  | succ f ih =>
    simp only [hexDigitsAux, if_neg (by omega : ¬n = 0)]
    by_cases hsmall : n < 16
    · have hq : n / 16 = 0 := Nat.div_eq_of_lt hsmall
      rw [hq, hexDigitsAux_zero]
      have hm : n % 16 = n := Nat.mod_eq_of_lt hsmall
      rw [hm]
      simpa using hexChar_ne_zero n hsmall h0
    · have hq0 : 0 < n / 16 := Nat.div_pos (by omega) (by omega)
      have hqf : n / 16 ≤ f := by
        have h1 : n / 16 < n := Nat.div_lt_self (by omega) (by omega)
        omega
      rw [headD_append_of_ne_nil _ _ _ (hexDigitsAux_ne_nil f (n / 16) hq0 hqf)]
      exact ih (n / 16) hq0 hqf

/-- The hex rendering of a positive number never starts with a zero digit:
it is the minimal representation. -/
lemma natToHex_head (n : Nat) (h0 : 0 < n) : (natToHex n).headD ' ' ≠ '0' := by
  simp only [natToHex, if_neg (by omega : ¬n = 0)]
  exact hexDigitsAux_head n n h0 le_rfl

lemma padEven_even (h : List Char) : (padEven h).length % 2 = 0 := by
  unfold padEven
  split_ifs with hp
  · simp only [List.length_cons]
    omega
  · omega

lemma hexVal_padEven (h : List Char) : hexVal (padEven h) = hexVal h := by
  unfold padEven
  split_ifs
  · exact hexVal_zero_cons h
  · rfl

lemma padEven_valid (h : List Char) (hv : ∀ c ∈ h, isHexDigitChar c = true) :
    ∀ c ∈ padEven h, isHexDigitChar c = true := by
  unfold padEven
  split_ifs
  · intro c hc
    rcases List.mem_cons.1 hc with rfl | hc2
    · decide
    · exact hv c hc2
  · exact hv

lemma padEven_length (h : List Char) :
    (padEven h).length = if h.length % 2 = 1 then h.length + 1 else h.length := by
  unfold padEven
  split_ifs <;> simp

lemma hexToBytes_length : ∀ h : List Char, (hexToBytes h).length = h.length / 2
  | [] => rfl
  | [_] => by simp [hexToBytes]
  | c1 :: c2 :: rest => by
    simp only [hexToBytes, List.length_cons, hexToBytes_length rest]
    omega

lemma parseHexPair_lt (c1 c2 : Char) : parseHexPair c1 c2 < 256 := by
  unfold parseHexPair
  cases h1 : hexDigitVal c1 with
  | none => simp
  | some v1 =>
    have hv1 := hexDigitVal_lt c1 v1 h1
    cases h2 : hexDigitVal c2 with
    | none =>
      simp only []
      omega
    | some v2 =>
      have hv2 := hexDigitVal_lt c2 v2 h2
      simp only []
      omega

lemma hexToBytes_bytes : ∀ h : List Char, ∀ b ∈ hexToBytes h, b < 256
  | [] => by simp [hexToBytes]
  | [c] => by simp [hexToBytes]
  | c1 :: c2 :: rest => by
    intro b hb
    rcases List.mem_cons.1 hb with rfl | hb2
    · exact parseHexPair_lt c1 c2
    · exact hexToBytes_bytes rest b hb2

lemma parseHexPair_valid (c1 c2 : Char) (v1 v2 : Nat)
    (h1 : hexDigitVal c1 = some v1) (h2 : hexDigitVal c2 = some v2) :
    parseHexPair c1 c2 = 16 * v1 + v2 := by
  unfold parseHexPair
  rw [h1, h2]

lemma hexToBytes_val : ∀ h : List Char, h.length % 2 = 0 →
    (∀ c ∈ h, isHexDigitChar c = true) → beVal (hexToBytes h) = hexVal h
  | [], _, _ => rfl
  | [c], hp, _ => by simp at hp
  | c1 :: c2 :: rest, hp, hv => by
    have hp2 : rest.length % 2 = 0 := by
      simp only [List.length_cons] at hp
      omega
    have hv2 : ∀ c ∈ rest, isHexDigitChar c = true := fun c hc =>
      hv c (by simp [hc])
    have hc1 : isHexDigitChar c1 = true := hv c1 (by simp)
    have hc2 : isHexDigitChar c2 = true := hv c2 (by simp)
    obtain ⟨v1, hv1⟩ : ∃ v, hexDigitVal c1 = some v := by
      cases h : hexDigitVal c1 with
      | none => rw [isHexDigitChar, h] at hc1; simp at hc1
      | some v => exact ⟨v, rfl⟩
    obtain ⟨v2, hvtwo⟩ : ∃ v, hexDigitVal c2 = some v := by
      cases h : hexDigitVal c2 with
      | none => rw [isHexDigitChar, h] at hc2; simp at hc2
      | some v => exact ⟨v, rfl⟩
    simp only [hexToBytes]
    rw [beVal_cons, hexToBytes_val rest hp2 hv2, hexToBytes_length,
      parseHexPair_valid c1 c2 v1 v2 hv1 hvtwo]
    rw [hexVal_cons, hexVal_cons, hv1, hvtwo]
    simp only [Option.getD_some, List.length_cons]
    have hpow : (256 : Nat) ^ (rest.length / 2) = 16 ^ rest.length := by
      have h1 : (256 : Nat) = 16 ^ 2 := by norm_num
      rw [h1, ← pow_mul]
      congr 1
      omega
    rw [hpow]
    ring

lemma hexToBytes_append_even : ∀ h1 h2 : List Char, h1.length % 2 = 0 →
    hexToBytes (h1 ++ h2) = hexToBytes h1 ++ hexToBytes h2
  | [], _, _ => rfl
  | [c], _, hp => by simp at hp
  | c1 :: c2 :: rest, h2, hp => by
    have hp2 : rest.length % 2 = 0 := by
      simp only [List.length_cons] at hp
      omega
    simp only [List.cons_append, hexToBytes, List.length_cons, List.append_eq]
    rw [hexToBytes_append_even rest h2 hp2]

set_option maxRecDepth 4000 in
lemma byteToHexPair_facts : ∀ b < 256,
    ((byteToHexPair b).length = 2 ∧ hexToBytes (byteToHexPair b) = [b])
      ∧ ((byteToHexPair b).all isHexDigitChar = true
        ∧ hexVal (byteToHexPair b) = b) := by
  decide

lemma bytesToHex_cons (b : Nat) (l : List Nat) :
    bytesToHex (b :: l) = byteToHexPair b ++ bytesToHex l := by
  simp [bytesToHex]

lemma bytesToHex_length (l : List Nat) (h : ∀ b ∈ l, b < 256) :
    (bytesToHex l).length = 2 * l.length := by
  induction l with
  | nil => simp [bytesToHex]
  | cons b t ih =>
    rw [bytesToHex_cons]
    have hb := (byteToHexPair_facts b (h b (by simp))).1.1
    simp only [List.length_append, List.length_cons, hb,
      ih fun x hx => h x (by simp [hx])]
    ring

lemma bytesToHex_valid (l : List Nat) (h : ∀ b ∈ l, b < 256) :
    ∀ c ∈ bytesToHex l, isHexDigitChar c = true := by
  induction l with
  | nil => simp [bytesToHex]
  | cons b t ih =>
    rw [bytesToHex_cons]
    intro c hc
    rcases List.mem_append.1 hc with hcl | hcr
    · have hb := (byteToHexPair_facts b (h b (by simp))).2.1
      exact List.all_eq_true.1 hb c hcl
    · exact ih (fun x hx => h x (by simp [hx])) c hcr

lemma hexToBytes_bytesToHex (l : List Nat) (h : ∀ b ∈ l, b < 256) :
    hexToBytes (bytesToHex l) = l := by
  induction l with
  | nil => simp [bytesToHex, hexToBytes]
  | cons b t ih =>
    rw [bytesToHex_cons]
    have hb := (byteToHexPair_facts b (h b (by simp))).1
    rw [hexToBytes_append_even _ _ (by rw [hb.1]), hb.2,
      ih fun x hx => h x (by simp [hx])]
    rfl

lemma hexVal_bytesToHex (l : List Nat) (h : ∀ b ∈ l, b < 256) :
    hexVal (bytesToHex l) = beVal l := by
  induction l with
  | nil => simp [bytesToHex, hexVal, beVal]
  | cons b t ih =>
    rw [bytesToHex_cons, hexVal_append, beVal_cons,
      (byteToHexPair_facts b (h b (by simp))).2.2,
      ih fun x hx => h x (by simp [hx]),
      bytesToHex_length t fun x hx => h x (by simp [hx])]
    have hpow : (16 : Nat) ^ (2 * t.length) = 256 ^ t.length := by
      rw [pow_mul]
      norm_num
    rw [hpow]

lemma beVal_inj : ∀ l1 l2 : List Nat, (∀ b ∈ l1, b < 256) →
    (∀ b ∈ l2, b < 256) → l1.length = l2.length → beVal l1 = beVal l2 →
    l1 = l2
  | [], [], _, _, _, _ => rfl
  | [], _ :: _, _, _, hl, _ => by simp at hl
  | _ :: _, [], _, _, hl, _ => by simp at hl
  | a1 :: t1, a2 :: t2, h1, h2, hl, hv => by
    have hlen : t1.length = t2.length := by
      simp only [List.length_cons] at hl
      omega
    rw [beVal_cons, beVal_cons, hlen] at hv
    have hv1 : beVal t1 < 256 ^ t2.length := by
      rw [← hlen]
      exact beVal_lt t1 fun b hb => h1 b (by simp [hb])
    have hv2 : beVal t2 < 256 ^ t2.length :=
      beVal_lt t2 fun b hb => h2 b (by simp [hb])
    have hmod1 : (a1 * 256 ^ t2.length + beVal t1) % 256 ^ t2.length
        = beVal t1 := by
      rw [Nat.add_comm, Nat.add_mul_mod_self_right]
      exact Nat.mod_eq_of_lt hv1
    have hmod2 : (a2 * 256 ^ t2.length + beVal t2) % 256 ^ t2.length
        = beVal t2 := by
      rw [Nat.add_comm, Nat.add_mul_mod_self_right]
      exact Nat.mod_eq_of_lt hv2
    have htv : beVal t1 = beVal t2 := by
      rw [← hmod1, ← hmod2, hv]
    have hpos : 0 < (256 : Nat) ^ t2.length := Nat.pos_pow_of_pos _ (by omega)
    have ha : a1 = a2 := by
      have : a1 * 256 ^ t2.length = a2 * 256 ^ t2.length := by omega
      exact Nat.eq_of_mul_eq_mul_right hpos this
    rw [ha, beVal_inj t1 t2 (fun b hb => h1 b (by simp [hb]))
      (fun b hb => h2 b (by simp [hb])) hlen htv]

lemma beVal_head_lower (ct : List Nat) (hh : ct.headD 0 ≠ 0) (hne : ct ≠ []) :
    256 ^ (ct.length - 1) ≤ beVal ct := by
  cases ct with
  | nil => exact absurd rfl hne
  | cons a t =>
    rw [beVal_cons]
    have ha : 1 ≤ a := by
      simp only [List.headD_cons] at hh
      omega
    have h1 : 256 ^ t.length ≤ a * 256 ^ t.length :=
      Nat.le_mul_of_pos_left _ (by omega)
    simp only [List.length_cons, Nat.add_sub_cancel]
    omega

/-- Decoding the minimal padded hex rendering of the big-endian value of a
byte string recovers the byte string, provided it is nonempty and does
not begin with a zero byte (the leading-zero information loss the design
documents). -/
lemma bytes_min_roundtrip (ct : List Nat) (hb : ∀ b ∈ ct, b < 256)
    (hh : ct.headD 0 ≠ 0) (hne : ct ≠ []) :
    hexToBytes (padEven (natToHex (beVal ct))) = ct := by
  have hk1 : 1 ≤ ct.length := by
    cases ct with
    | nil => exact absurd rfl hne
    | cons a t => simp
  have hlow : 256 ^ (ct.length - 1) ≤ beVal ct := beVal_head_lower ct hh hne
  have hhigh : beVal ct < 256 ^ ct.length := beVal_lt ct hb
  have hN1 : 1 ≤ beVal ct := by
    have : 1 ≤ 256 ^ (ct.length - 1) := Nat.one_le_pow _ _ (by omega)
    omega
  obtain ⟨hxlow, hxhigh⟩ := natToHex_bounds (beVal ct) hN1
  have h256 : ∀ m : Nat, (256 : Nat) ^ m = 16 ^ (2 * m) := by
    intro m
    rw [pow_mul]
    norm_num
  rw [h256] at hlow hhigh
  -- the minimal hex length is 2k-1 or 2k where k is the byte count
  have hub : (natToHex (beVal ct)).length ≤ 2 * ct.length := by
    by_contra hcon
    have h1 : 2 * ct.length ≤ (natToHex (beVal ct)).length - 1 := by omega
    have h2 : (16 : Nat) ^ (2 * ct.length)
        ≤ 16 ^ ((natToHex (beVal ct)).length - 1) :=
      Nat.pow_le_pow_right (by omega) h1
    omega
  have hlb : 2 * ct.length - 2 < (natToHex (beVal ct)).length := by
    have h1 : (16 : Nat) ^ (2 * (ct.length - 1))
        < 16 ^ (natToHex (beVal ct)).length := by omega
    have h2 := (Nat.pow_lt_pow_iff_right (by omega : (1:Nat) < 16)).1 h1
    omega
  have hplen : (padEven (natToHex (beVal ct))).length = 2 * ct.length := by
    rw [padEven_length]
    split_ifs with hodd <;> omega
  apply beVal_inj
  · exact hexToBytes_bytes _
  · exact hb
  · rw [hexToBytes_length, hplen]
    omega
  · rw [hexToBytes_val _ (padEven_even _) (padEven_valid _ (natToHex_valid _)),
      hexVal_padEven, natToHex_val]

lemma beVal_pos_of_head (ct : List Nat) (hh : ct.headD 0 ≠ 0) (hne : ct ≠ []) :
    1 ≤ beVal ct := by
  have hlow := beVal_head_lower ct hh hne
  have : 1 ≤ 256 ^ (ct.length - 1) := Nat.one_le_pow _ _ (by omega)
  omega

lemma beVal_all_zero (l : List Nat) (h : ∀ b ∈ l, b = 0) : beVal l = 0 := by
  induction l with
  | nil => rfl
  | cons a t ih =>
    rw [beVal_cons, h a (by simp), ih fun b hb => h b (by simp [hb])]
    simp

lemma bytesToHex_ne_nil (l : List Nat) (hb : ∀ b ∈ l, b < 256)
    (hne : l ≠ []) : bytesToHex l ≠ [] := by
  intro hcon
  have := bytesToHex_length l hb
  rw [hcon] at this
  simp at this
  cases l with
  | nil => exact hne rfl
  | cons a t => simp at this

lemma pyIntHex_bytesToHex (l : List Nat) (hb : ∀ b ∈ l, b < 256)
    (hne : l ≠ []) : pyIntHex (bytesToHex l) = some (beVal l) := by
  unfold pyIntHex
  rw [if_pos ⟨bytesToHex_ne_nil l hb hne, List.all_eq_true.2 (bytesToHex_valid l hb)⟩,
    hexVal_bytesToHex l hb]

/-- Encoding a nonempty byte string always produces a token; a positive
value yields the division-loop digits, value zero yields the single
character 0. -/
lemma base62Encode_eq (l : List Nat) (hb : ∀ b ∈ l, b < 256) (hne : l ≠ []) :
    base62Encode l = some
      (if b62digits (beVal l) (beVal l) = [] then ['0']
        else b62digits (beVal l) (beVal l)) := by
  unfold base62Encode base62EncodeHex
  rw [pyIntHex_bytesToHex l hb hne]
  rfl

/-- Full byte-level round trip: base62-encoding a nonempty byte string
with a nonzero leading byte and then running the decoder (base62Decode
followed by hexToBytes) recovers the byte string. -/
lemma token_roundtrip (ct : List Nat) (hb : ∀ b ∈ ct, b < 256)
    (hh : ct.headD 0 ≠ 0) (hne : ct ≠ []) :
    ∃ tok, base62Encode ct = some tok
      ∧ base62Decode tok = .ok (padEven (natToHex (beVal ct)))
      ∧ hexToBytes (padEven (natToHex (beVal ct))) = ct := by
  have hN := beVal_pos_of_head ct hh hne
  have hdig := b62digits_ne_nil (beVal ct) (beVal ct) (by omega) le_rfl
  refine ⟨b62digits (beVal ct) (beVal ct), ?_, ?_, bytes_min_roundtrip ct hb hh hne⟩
  · rw [base62Encode_eq ct hb hne, if_neg hdig]
  · unfold base62Decode
    rw [b62digits_decode (beVal ct) (beVal ct) 0 le_rfl]
    simp [Except.map]

lemma base62Decode_ok (s : List Char) (h : ∀ c ∈ s, c ∈ chars62) :
    base62Decode s = .ok (padEven (natToHex (specB62Val s))) := by
  unfold base62Decode
  rw [base62DecodeNat_ok s 0 h]
  simp [Except.map]

lemma base62Decode_error_iff (s : List Char) :
    (∃ e, base62Decode s = .error e) ↔ ∃ c ∈ s, c ∉ chars62 := by
  rw [← base62DecodeNat_error_iff s 0]
  unfold base62Decode
  cases h : base62DecodeNat s 0 with
  | ok n => simp [Except.map]
  | error e => simp [Except.map]

lemma base62Decode_error_of (s : List Char) (e : Char)
    (he : base62DecodeNat s 0 = .error e) : base62Decode s = .error e := by
  unfold base62Decode
  rw [he]
  rfl

lemma utf8Step_consumes (l : List Nat) (oc : Option Char) (rest : List Nat)
    (h : utf8Step l = some (oc, rest)) : rest.length < l.length := by
  cases l with
  | nil => simp [utf8Step] at h
  | cons b0 t =>
    simp only [utf8Step] at h
    repeat' split at h
    all_goals simp only [Option.some.injEq, Prod.mk.injEq, reduceCtorEq] at h
    all_goals try obtain ⟨-, rfl⟩ := h
    all_goals simp only [List.length_cons, List.length_nil]
    all_goals omega

lemma utf8DecAux_nil (fuel : Nat) : utf8DecAux fuel [] = some [] := by
  cases fuel <;> simp [utf8DecAux, utf8Step]

lemma utf8LossyAux_nil (fuel : Nat) : utf8LossyAux fuel [] = [] := by
  cases fuel <;> simp [utf8LossyAux, utf8Step]

lemma utf8DecAux_congr (f1 : Nat) : ∀ f2 l, l.length ≤ f1 → l.length ≤ f2 →
    utf8DecAux f1 l = utf8DecAux f2 l := by
  induction f1 with
  | zero =>
    intro f2 l h1 _
    have hl : l = [] := by
      cases l with
      | nil => rfl
      | cons a t => simp at h1
    rw [hl, utf8DecAux_nil, utf8DecAux_nil]
  | succ a ih =>
    intro f2 l h1 h2
    cases l with
    | nil => rw [utf8DecAux_nil, utf8DecAux_nil]
    | cons b t =>
      cases f2 with
      | zero => simp at h2
      | succ g =>
        simp only [utf8DecAux]
        cases hs : utf8Step (b :: t) with
        | none => rfl
        | some p =>
          obtain ⟨oc, rest⟩ := p
          have hlt := utf8Step_consumes _ _ _ hs
          simp only [List.length_cons] at hlt h1 h2
          cases oc with
          | none => rfl
          | some c =>
            have hre := ih g rest (by omega) (by omega)
            simp only [hre]

lemma utf8Step_encChar (c : Char) (rest : List Nat) :
    utf8Step (utf8EncChar c ++ rest) = some (some c, rest) := by
  have hv : c.toNat < 0xD800 ∨ (0xDFFF < c.toNat ∧ c.toNat < 0x110000) := c.valid
  unfold utf8EncChar
  by_cases h1 : c.toNat < 0x80
  · simp only [if_pos h1, List.cons_append, List.nil_append]
    simp only [utf8Step, if_pos h1, Char.ofNat_toNat]
  · by_cases h2 : c.toNat < 0x800
    · simp only [if_neg h1, if_pos h2, List.cons_append, List.nil_append]
      have hb0a : ¬(0xC0 + c.toNat / 64 < 0x80) := by omega
      have hb0b : ¬(0xC0 + c.toNat / 64 < 0xC2) := by omega
      have hb0c : 0xC0 + c.toNat / 64 < 0xE0 := by omega
      have hcont : isCont (0x80 + c.toNat % 64) = true := by
        simp only [isCont, Bool.and_eq_true, decide_eq_true_eq]
        omega
      simp only [utf8Step, if_neg hb0a, if_neg hb0b, if_pos hb0c, hcont,
        if_pos rfl]
      have harith : (0xC0 + c.toNat / 64 - 0xC0) * 64 + (0x80 + c.toNat % 64 - 0x80)
          = c.toNat := by omega
      rw [if_pos (by trivial), harith, Char.ofNat_toNat]
    · by_cases h3 : c.toNat < 0x10000
      · simp only [if_neg h1, if_neg h2, if_pos h3, List.cons_append,
          List.nil_append]
        have hb0a : ¬(0xE0 + c.toNat / 4096 < 0x80) := by omega
        have hb0b : ¬(0xE0 + c.toNat / 4096 < 0xC2) := by omega
        have hb0c : ¬(0xE0 + c.toNat / 4096 < 0xE0) := by omega
        have hb0d : 0xE0 + c.toNat / 4096 < 0xF0 := by omega
        have hcont1 : isCont (0x80 + c.toNat / 64 % 64) = true := by
          simp only [isCont, Bool.and_eq_true, decide_eq_true_eq]
          omega
        have hcont2 : isCont (0x80 + c.toNat % 64) = true := by
          simp only [isCont, Bool.and_eq_true, decide_eq_true_eq]
          omega
        have harith : (0xE0 + c.toNat / 4096 - 0xE0) * 4096
            + (0x80 + c.toNat / 64 % 64 - 0x80) * 64
            + (0x80 + c.toNat % 64 - 0x80) = c.toNat := by omega
        simp only [utf8Step, if_neg hb0a, if_neg hb0b, if_neg hb0c,
          if_pos hb0d, hcont1, hcont2, Bool.and_self, harith]
        have hrange : 0x800 ≤ c.toNat
            ∧ (c.toNat < 0xD800 ∨ 0xE000 ≤ c.toNat) := by omega
        simp [hrange, Char.ofNat_toNat]
      · simp only [if_neg h1, if_neg h2, if_neg h3, List.cons_append,
          List.nil_append]
        have hub : c.toNat < 0x110000 := by omega
        have hb0a : ¬(0xF0 + c.toNat / 262144 < 0x80) := by omega
        have hb0b : ¬(0xF0 + c.toNat / 262144 < 0xC2) := by omega
        have hb0c : ¬(0xF0 + c.toNat / 262144 < 0xE0) := by omega
        have hb0d : ¬(0xF0 + c.toNat / 262144 < 0xF0) := by omega
        have hb0e : 0xF0 + c.toNat / 262144 < 0xF5 := by omega
        have hcont1 : isCont (0x80 + c.toNat / 4096 % 64) = true := by
          simp only [isCont, Bool.and_eq_true, decide_eq_true_eq]
          omega
        have hcont2 : isCont (0x80 + c.toNat / 64 % 64) = true := by
          simp only [isCont, Bool.and_eq_true, decide_eq_true_eq]
          omega
        have hcont3 : isCont (0x80 + c.toNat % 64) = true := by
          simp only [isCont, Bool.and_eq_true, decide_eq_true_eq]
          omega
        have harith : (0xF0 + c.toNat / 262144 - 0xF0) * 262144
            + (0x80 + c.toNat / 4096 % 64 - 0x80) * 4096
            + (0x80 + c.toNat / 64 % 64 - 0x80) * 64
            + (0x80 + c.toNat % 64 - 0x80) = c.toNat := by omega
        simp only [utf8Step, if_neg hb0a, if_neg hb0b, if_neg hb0c,
          if_neg hb0d, if_pos hb0e, hcont1, hcont2, hcont3, Bool.and_self,
          harith]
        have hrange : 0x10000 ≤ c.toNat ∧ c.toNat ≤ 0x10FFFF := by omega
        simp [hrange, Char.ofNat_toNat]

lemma utf8EncChar_length_pos (c : Char) : 1 ≤ (utf8EncChar c).length := by
  simp only [utf8EncChar]
  split_ifs <;> simp

lemma utf8Enc_cons (c : Char) (cs : List Char) :
    utf8Enc (c :: cs) = utf8EncChar c ++ utf8Enc cs := by
  simp [utf8Enc]

lemma utf8DecAux_enc (s : List Char) : ∀ fuel, (utf8Enc s).length ≤ fuel →
    utf8DecAux fuel (utf8Enc s) = some s := by
  induction s with
  | nil =>
    intro fuel _
    rw [show utf8Enc [] = [] from rfl, utf8DecAux_nil]
  | cons c cs ih =>
    intro fuel hf
    rw [utf8Enc_cons] at hf ⊢
    have hlen1 := utf8EncChar_length_pos c
    rw [List.length_append] at hf
    cases fuel with
    | zero => omega
    | succ f =>
      have hrest : (utf8Enc cs).length ≤ f := by omega
      simp only [utf8DecAux, utf8Step_encChar, ih f hrest, Option.map_some']

/-- Strict UTF-8 decoding of the encoding of any character sequence
succeeds and recovers the sequence. -/
lemma utf8Dec_enc (s : List Char) : utf8Dec (utf8Enc s) = some s :=
  utf8DecAux_enc s _ le_rfl

lemma utf8LossyAux_agree : ∀ fuel (l : List Nat) (s : List Char),
    utf8DecAux fuel l = some s → utf8LossyAux fuel l = s := by
  intro fuel
  induction fuel with
  | zero =>
    intro l s h
    cases l with
    | nil =>
      simp only [utf8DecAux] at h
      simp only [utf8LossyAux]
      simp at h
      exact h.symm
    | cons b t => simp [utf8DecAux] at h
  | succ f ih =>
    intro l s h
    simp only [utf8DecAux] at h
    simp only [utf8LossyAux]
    cases hs : utf8Step l with
    | none =>
      rw [hs] at h
      simp at h
      simp [← h]
    | some p =>
      obtain ⟨oc, rest⟩ := p
      rw [hs] at h
      cases oc with
      | none => simp at h
      | some c =>
        simp only [Option.map_eq_some'] at h
        obtain ⟨s2, hs2, rfl⟩ := h
        simp only [ih rest s2 hs2]

/-- Node Buffer.toString("utf8") agrees with the strict decoder whenever
the latter succeeds. -/
lemma utf8Lossy_of_dec (l : List Nat) (s : List Char)
    (h : utf8Dec l = some s) : utf8Lossy l = s :=
  utf8LossyAux_agree l.length l s h

/-- An ASCII byte followed by a continuation byte is malformed UTF-8, so
the strict stringifier throws on it.  In particular it throws on any
byte string starting with the gzip magic 1F 8B. -/
lemma utf8Dec_ascii_cont (b0 b1 : Nat) (t : List Nat) (h0 : b0 < 0x80)
    (h1 : 0x80 ≤ b1) (h2 : b1 < 0xC0) : utf8Dec (b0 :: b1 :: t) = none := by
  have hstep0 : utf8Step (b0 :: b1 :: t) = some (some (Char.ofNat b0), b1 :: t) := by
    simp only [utf8Step, if_pos h0]
  have hstep1 : utf8Step (b1 :: t) = some (none, t) := by
    have ha : ¬b1 < 0x80 := by omega
    have hb : b1 < 0xC2 := by omega
    simp only [utf8Step, if_neg ha, if_pos hb]
  unfold utf8Dec
  simp only [List.length_cons, utf8DecAux, hstep0, hstep1]
  rfl

lemma utf8EncChar_bytes (c : Char) : ∀ b ∈ utf8EncChar c, b < 256 := by
  have hv : c.toNat < 0xD800 ∨ (0xDFFF < c.toNat ∧ c.toNat < 0x110000) := c.valid
  simp only [utf8EncChar]
  split_ifs with h1 h2 h3 <;> intro b hb <;> simp at hb <;>
    rcases hb with rfl | rfl | rfl | rfl <;> omega

lemma utf8Enc_bytes (l : List Char) : ∀ b ∈ utf8Enc l, b < 256 := by
  intro b hb
  simp only [utf8Enc, List.mem_flatten, List.mem_map] at hb
  obtain ⟨bs, ⟨c, _, rfl⟩, hmem⟩ := hb
  exact utf8EncChar_bytes c b hmem

lemma deriveKeyAndIVM_eq (P : Prims) (pw : String) :
    deriveKeyAndIVM P pw = (P.sha256 pw, P.md5 pw) := by
  unfold deriveKeyAndIVM
  rw [hexToBytes_bytesToHex _ (P.sha256_bytes pw),
    hexToBytes_bytesToHex _ (P.md5_bytes pw)]

lemma bytesToHex_take (l : List Nat) (hb : ∀ b ∈ l, b < 256) :
    ∀ m, (bytesToHex l).take (2 * m) = bytesToHex (l.take m) := by
  induction l with
  | nil => intro m; simp [bytesToHex]
  | cons b t ih =>
    intro m
    cases m with
    | zero => simp [bytesToHex]
    | succ k =>
      rw [bytesToHex_cons, List.take_succ_cons, bytesToHex_cons]
      have hp : (byteToHexPair b).length = 2 :=
        (byteToHexPair_facts b (hb b (by simp))).1.1
      have harith : 2 * (k + 1) = (byteToHexPair b).length + 2 * k := by
        rw [hp]
        omega
      rw [harith, List.take_append, ih (fun x hx => hb x (by simp [hx])) k]

lemma cleanDecryptedData_no_stripped (l : List Char) :
    ∀ c ∈ cleanDecryptedData l, strippedB c = false := by
  intro c hc
  have := List.mem_filter.1 hc
  simpa using this.2

lemma cleanDecryptedData_id (l : List Char)
    (h : ∀ c ∈ l, strippedB c = false) : cleanDecryptedData l = l := by
  unfold cleanDecryptedData
  rw [List.filter_eq_self]
  intro c hc
  simp [h c hc]

lemma isLikelyGzipped_gzip (P : Prims) (d : List Nat) :
    isLikelyGzipped (P.gzip d) = true := by
  obtain ⟨rest, hrest⟩ := P.gzip_magic d
  rw [hrest]
  rfl

lemma isLikelyGzipped_shape (d : List Nat) (h : isLikelyGzipped d = true) :
    ∃ t, d = 0x1F :: 0x8B :: 0x08 :: t := by
  match d with
  | [] => simp [isLikelyGzipped] at h
  | [_] => simp [isLikelyGzipped] at h
  | [_, _] => simp [isLikelyGzipped] at h
  | b0 :: b1 :: b2 :: t =>
    simp only [isLikelyGzipped, Bool.and_eq_true, beq_iff_eq] at h
    obtain ⟨⟨rfl, rfl⟩, rfl⟩ := h
    exact ⟨t, rfl⟩

lemma utf8Dec_of_magic (d : List Nat) (h : isLikelyGzipped d = true) :
    utf8Dec d = none := by
  obtain ⟨t, rfl⟩ := isLikelyGzipped_shape d h
  exact utf8Dec_ascii_cont 0x1F 0x8B (0x08 :: t) (by omega) (by omega) (by omega)

lemma utf8Dec_gzip (P : Prims) (d : List Nat) : utf8Dec (P.gzip d) = none :=
  utf8Dec_of_magic _ (isLikelyGzipped_gzip P d)

lemma encryptM_eq (P : Prims) (p : List Char) (pw : String) :
    encryptM P p pw = base62Encode (ctOf P (utf8Enc p) pw) := rfl

lemma ctOf_bytes (P : Prims) (data : List Nat) (pw : String)
    (hd : ∀ b ∈ data, b < 256) : ∀ b ∈ ctOf P data pw, b < 256 :=
  P.aesEnc_bytes _ _ _ (P.gzip_bytes data hd)

lemma ctOf_ne_nil (P : Prims) (data : List Nat) (pw : String) :
    ctOf P data pw ≠ [] := by
  intro hcon
  have hlen := P.aesEnc_len (hexToBytes (bytesToHex (P.sha256 pw)))
    (hexToBytes (bytesToHex (P.md5 pw))) (P.gzip data)
  rw [show P.aesEnc (hexToBytes (bytesToHex (P.sha256 pw)))
      (hexToBytes (bytesToHex (P.md5 pw))) (P.gzip data) = ctOf P data pw
    from rfl, hcon] at hlen
  simp at hlen

lemma decryptM_of_error (P : Prims) (tok : List Char) (pw : String) (e : Char)
    (h : base62Decode tok = .error e) : decryptM P tok pw = .error e := by
  unfold decryptM
  rw [h]

lemma decryptM_of_ok (P : Prims) (tok : List Char) (pw : String)
    (hex : List Char) (h : base62Decode tok = .ok hex) :
    decryptM P tok pw =
      match utf8Dec (P.aesDec (deriveKeyAndIVM P pw).1 (deriveKeyAndIVM P pw).2
          (hexToBytes hex)) with
      | some r =>
        if r.length > 0
          then .ok (cleanDecryptedData r)
          else decryptTail P (P.aesDec (deriveKeyAndIVM P pw).1
            (deriveKeyAndIVM P pw).2 (hexToBytes hex))
      | none => decryptTail P (P.aesDec (deriveKeyAndIVM P pw).1
          (deriveKeyAndIVM P pw).2 (hexToBytes hex)) := by
  unfold decryptM
  rw [h]

/-- Conditional round trip of the whole pipeline: if the produced
ciphertext does not begin with a zero byte and the plaintext contains
none of the control characters cleanDecryptedData strips, decrypting the
encryption of p with the same password gives back exactly p. -/
lemma roundtrip_main (P : Prims) (p : List Char) (pw : String)
    (hct : (ctOf P (utf8Enc p) pw).headD 0 ≠ 0)
    (hclean : ∀ c ∈ p, strippedB c = false) :
    ∃ tok, encryptM P p pw = some tok ∧ decryptM P tok pw = .ok p := by
  have hb : ∀ b ∈ ctOf P (utf8Enc p) pw, b < 256 :=
    ctOf_bytes P _ pw (utf8Enc_bytes p)
  have hne : ctOf P (utf8Enc p) pw ≠ [] := ctOf_ne_nil P _ pw
  obtain ⟨tok, henc, hdec, hbytes⟩ := token_roundtrip _ hb hct hne
  refine ⟨tok, by rw [encryptM_eq, henc], ?_⟩
  rw [decryptM_of_ok P tok pw _ hdec, hbytes]
  have hkiv : deriveKeyAndIVM P pw
      = (hexToBytes (bytesToHex (P.sha256 pw)),
        hexToBytes (bytesToHex (P.md5 pw))) := rfl
  rw [hkiv]
  have haes : P.aesDec (hexToBytes (bytesToHex (P.sha256 pw)))
      (hexToBytes (bytesToHex (P.md5 pw))) (ctOf P (utf8Enc p) pw)
      = P.gzip (utf8Enc p) := P.aes_round _ _ _
  simp only [haes, utf8Dec_gzip]
  unfold decryptTail
  rw [if_pos (isLikelyGzipped_gzip P (utf8Enc p))]
  unfold decompressData
  rw [P.gunzip_gzip, Option.map_some', utf8Lossy_of_dec _ _ (utf8Dec_enc p)]
  show Except.ok (cleanDecryptedData p) = Except.ok p
  rw [cleanDecryptedData_id p hclean]

lemma decryptTail_magic (P : Prims) (d : List Nat)
    (h : isLikelyGzipped d = true) :
    decryptTail P d
      = .ok (cleanDecryptedData ((decompressData P d).getD (latin1OfBytes d))) := by
  unfold decryptTail
  rw [if_pos h]
  cases hdc : decompressData P d <;> simp [hdc]

lemma decryptTail_nomagic (P : Prims) (d : List Nat)
    (h : isLikelyGzipped d = false) :
    decryptTail P d = .ok (cleanDecryptedData (latin1OfBytes d)) := by
  unfold decryptTail
  rw [h]
  simp

lemma decryptTail_ok (P : Prims) (d : List Nat) :
    ∃ r, decryptTail P d = .ok r := by
  unfold decryptTail
  split_ifs
  · cases hdc : decompressData P d with
    | none => exact ⟨_, rfl⟩
    | some txt => exact ⟨_, rfl⟩
  · exact ⟨_, rfl⟩

lemma decryptM_never_other_error (P : Prims) (tok : List Char) (pw : String)
    (e : Char) (h : decryptM P tok pw = .error e) :
    base62Decode tok = .error e := by
  cases hb : base62Decode tok with
  | error e2 =>
    rw [decryptM_of_error P tok pw e2 hb] at h
    cases h
    rfl
  | ok hex =>
    rw [decryptM_of_ok P tok pw hex hb] at h
    exfalso
    cases hu : utf8Dec (P.aesDec (deriveKeyAndIVM P pw).1
        (deriveKeyAndIVM P pw).2 (hexToBytes hex)) with
    | some r =>
      rw [hu] at h
      have h2 : (if r.length > 0
            then Except.ok (cleanDecryptedData r)
            else decryptTail P (P.aesDec (deriveKeyAndIVM P pw).1
              (deriveKeyAndIVM P pw).2 (hexToBytes hex)))
          = Except.error e := h
      by_cases hr : r.length > 0
      · rw [if_pos hr] at h2
        exact Except.noConfusion h2
      · rw [if_neg hr] at h2
        obtain ⟨r2, hr2⟩ := decryptTail_ok P
          (P.aesDec (deriveKeyAndIVM P pw).1 (deriveKeyAndIVM P pw).2
            (hexToBytes hex))
        rw [hr2] at h2
        exact Except.noConfusion h2
    | none =>
      rw [hu] at h
      have h2 : decryptTail P (P.aesDec (deriveKeyAndIVM P pw).1
          (deriveKeyAndIVM P pw).2 (hexToBytes hex)) = Except.error e := h
      obtain ⟨r2, hr2⟩ := decryptTail_ok P
        (P.aesDec (deriveKeyAndIVM P pw).1 (deriveKeyAndIVM P pw).2
          (hexToBytes hex))
      rw [hr2] at h2
      exact Except.noConfusion h2

lemma decryptM_swallow (P : Prims) (tok : List Char) (pw : String)
    (hex : List Char) (h : base62Decode tok = .ok hex)
    (hmagic : isLikelyGzipped (P.aesDec (deriveKeyAndIVM P pw).1
      (deriveKeyAndIVM P pw).2 (hexToBytes hex)) = true)
    (hfail : P.gunzip (P.aesDec (deriveKeyAndIVM P pw).1
      (deriveKeyAndIVM P pw).2 (hexToBytes hex)) = none) :
    decryptM P tok pw = .ok (cleanDecryptedData (latin1OfBytes
      (P.aesDec (deriveKeyAndIVM P pw).1 (deriveKeyAndIVM P pw).2
        (hexToBytes hex)))) := by
  rw [decryptM_of_ok P tok pw hex h, utf8Dec_of_magic _ hmagic]
  show decryptTail P _ = _
  rw [decryptTail_magic P _ hmagic]
  unfold decompressData
  rw [hfail]
  rfl

/-- C1.  The claim as stated is false: cleanDecryptedData strips control
characters from every decrypt result, so plaintexts containing them do
not round-trip (and a ciphertext starting with a zero byte loses that
byte in the base62 integer codec).  This amended statement adds exactly
those two provisos: the ciphertext must not start with a zero byte, and
the plaintext must contain no stripped control character; then
decrypting the encryption of p with the same password returns exactly p,
for every primitive suite satisfying the library contracts. -/
theorem claim1_roundtrip_amended (P : Prims) (p : List Char) (pw : String)
    (hct : (ctOf P (utf8Enc p) pw).headD 0 ≠ 0)
    (hclean : ∀ c ∈ p, strippedB c = false) :
    ∃ tok, encryptM P p pw = some tok ∧ decryptM P tok pw = .ok p :=
  roundtrip_main P p pw hct hclean

/-- C1 counterexample.  With the toy primitive suite (which satisfies
every contract of the interface), encrypting the three-character
plaintext a 0x01 b and decrypting with the same password yields a b: the
0x01 byte is removed by cleanDecryptedData, so the round-trip claim as
stated fails. -/
theorem claim1_counterexample :
    (encryptM toyPrims pC1 "pw").isSome = true
      ∧ decryptM toyPrims ((encryptM toyPrims pC1 "pw").getD []) "pw"
        = .ok ['a', 'b']
      ∧ (['a', 'b'] : List Char) ≠ pC1 := by
  decide

/-- C1 witness: the amended round trip at a concrete plaintext, password
and primitive instance. -/
theorem claim1_witness :
    ∃ tok, encryptM toyPrims ['H', 'i'] "pw" = some tok
      ∧ decryptM toyPrims tok "pw" = .ok ['H', 'i'] :=
  claim1_roundtrip_amended toyPrims ['H', 'i'] "pw" (by decide) (by decide)

/-- C2 (amended).  Decode-stage failures do fail fast: an invalid token
character aborts decrypt with that error, for every primitive suite.  But
the decompression stage does NOT fail fast: when the AES-decrypted bytes
look gzipped and gunzip then throws, decrypt swallows the failure and
returns the cleaned Latin1 rendering of the decrypted bytes instead of
raising — a silent fallback the claim denies. -/
theorem claim2_error_handling_amended :
    (∀ (P : Prims) (tok : List Char) (pw : String) (e : Char),
      base62Decode tok = .error e → decryptM P tok pw = .error e)
    ∧ (∀ (P : Prims) (tok : List Char) (pw : String) (hex : List Char),
      base62Decode tok = .ok hex →
      isLikelyGzipped (P.aesDec (deriveKeyAndIVM P pw).1
        (deriveKeyAndIVM P pw).2 (hexToBytes hex)) = true →
      P.gunzip (P.aesDec (deriveKeyAndIVM P pw).1
        (deriveKeyAndIVM P pw).2 (hexToBytes hex)) = none →
      decryptM P tok pw = .ok (cleanDecryptedData (latin1OfBytes
        (P.aesDec (deriveKeyAndIVM P pw).1 (deriveKeyAndIVM P pw).2
          (hexToBytes hex))))) :=
  ⟨fun P tok pw e h => decryptM_of_error P tok pw e h,
    fun P tok pw hex h hmagic hfail => decryptM_swallow P tok pw hex h hmagic hfail⟩

/-- C2 counterexample.  Decrypting tokC2 with the toy suite reaches bytes
that look gzipped, gunzip fails on them, and decrypt nevertheless returns
a value (the cleaned Latin1 text, here the single character 0x8B) instead
of raising: the no-silent-fallback claim as stated is false. -/
theorem claim2_counterexample :
    isLikelyGzipped [0x1F, 0x8B, 0x08, 0x01] = true
      ∧ toyPrims.gunzip [0x1F, 0x8B, 0x08, 0x01] = none
      ∧ decryptM toyPrims tokC2 "pw" = .ok [Char.ofNat 0x8B] := by
  decide

/-- C2 witness: the fail-fast half applied at a concrete invalid token,
and the fallback half applied at tokC2, both with the toy suite. -/
theorem claim2_witness :
    decryptM toyPrims ['!'] "pw" = .error '!'
      ∧ decryptM toyPrims tokC2 "pw"
        = .ok (cleanDecryptedData (latin1OfBytes
          (toyPrims.aesDec (deriveKeyAndIVM toyPrims "pw").1
            (deriveKeyAndIVM toyPrims "pw").2
            (hexToBytes ((base62Decode tokC2).toOption.getD []))))) :=
  ⟨claim2_error_handling_amended.1 toyPrims ['!'] "pw" '!' (by decide),
    claim2_error_handling_amended.2 toyPrims tokC2 "pw"
      ((base62Decode tokC2).toOption.getD []) (by decide) (by decide) (by decide)⟩

/-- C3.  For every token over the alphabet, base62Decode returns the
minimal hex rendering of the base-62 value (digit table 0-9 a-z A-Z),
left-padded with one zero nibble to even length; the hex is faithful (its
value and the value of its byte decoding are the base-62 value), the
minimal rendering has no leading zero digit, and the empty string decodes
to the zero value 00. -/
theorem claim3_base62Decode_spec :
    (∀ s : List Char, (∀ c ∈ s, c ∈ chars62) →
      base62Decode s = .ok (padEven (natToHex (specB62Val s)))
        ∧ hexVal (padEven (natToHex (specB62Val s))) = specB62Val s
        ∧ (padEven (natToHex (specB62Val s))).length % 2 = 0
        ∧ beVal (hexToBytes (padEven (natToHex (specB62Val s)))) = specB62Val s)
    ∧ (∀ n : Nat, 0 < n → (natToHex n).headD ' ' ≠ '0')
    ∧ base62Decode [] = .ok ['0', '0'] := by
  refine ⟨fun s hs => ⟨base62Decode_ok s hs, ?_, padEven_even _, ?_⟩,
    natToHex_head, by decide⟩
  · rw [hexVal_padEven, natToHex_val]
  · rw [hexToBytes_val _ (padEven_even _) (padEven_valid _ (natToHex_valid _)),
      hexVal_padEven, natToHex_val]

/-- C3 witness: the characterisation applied to the concrete token 10
(value 62, hex 3e). -/
theorem claim3_witness :
    base62Decode ['1', '0'] = .ok (padEven (natToHex (specB62Val ['1', '0'])))
      ∧ padEven (natToHex (specB62Val ['1', '0'])) = ['3', 'e'] :=
  ⟨(claim3_base62Decode_spec.1 ['1', '0'] (by decide)).1, by decide⟩

/-- C4.  base62Decode raises exactly when some character of the input is
outside the 62-character alphabet, and decrypt propagates that error
unchanged for every primitive suite and password — the check is purely
syntactic and independent of all cryptographic processing — while decrypt
raises no error from any later stage. -/
theorem claim4_invalid_character :
    (∀ s : List Char, (∃ e, base62Decode s = .error e) ↔ ∃ c ∈ s, c ∉ chars62)
    ∧ (∀ (P : Prims) (pw : String) (s : List Char) (e : Char),
        base62Decode s = .error e → decryptM P s pw = .error e)
    ∧ (∀ (P : Prims) (pw : String) (s : List Char) (e : Char),
        decryptM P s pw = .error e → base62Decode s = .error e) :=
  ⟨base62Decode_error_iff,
    fun P pw s e h => decryptM_of_error P s pw e h,
    fun P pw s e h => decryptM_never_other_error P s pw e h⟩

/-- C4 witness: the syntactic rejection applied to the token !!!invalid!!!
of the specification's example, with the toy suite. -/
theorem claim4_witness :
    decryptM toyPrims "!!!invalid!!!".toList "pw" = .error '!' :=
  claim4_invalid_character.2.1 toyPrims "pw" "!!!invalid!!!".toList '!' (by decide)

/-- C5 (amended).  deriveKeyAndIV is total and always returns a 32-byte
key (the SHA-256 digest) and a 16-byte iv, for every password including
the empty one.  The iv is the MD5 digest in the CryptoJS variants and in
the Node branch of the environment-branching variant; in that variant's
browser branch, however, the iv is the first 16 bytes of the SHA-256
digest — not an MD5 digest of the password as the claim states. -/
theorem claim5_deriveKeyAndIV_amended (P : Prims) (pw : String) :
    (deriveKeyAndIVM P pw).1.length = 32
      ∧ (deriveKeyAndIVM P pw).2.length = 16
      ∧ deriveKeyAndIVM P pw = (P.sha256 pw, P.md5 pw)
      ∧ deriveKeyAndIVVariant P true pw = (P.sha256 pw, P.md5 pw)
      ∧ deriveKeyAndIVVariant P false pw
        = (P.sha256 pw, (P.sha256 pw).take 16)
      ∧ (deriveKeyAndIVVariant P false pw).2.length = 16 := by
  have hkey := deriveKeyAndIVM_eq P pw
  have hsha := P.sha256_len pw
  have hmd5 := P.md5_len pw
  have hivfalse : deriveKeyAndIVVariant P false pw
      = (P.sha256 pw, (P.sha256 pw).take 16) := by
    unfold deriveKeyAndIVVariant
    simp only [Bool.false_eq_true, if_false]
    rw [hexToBytes_bytesToHex _ (P.sha256_bytes pw),
      show (32 : Nat) = 2 * 16 from rfl,
      bytesToHex_take _ (P.sha256_bytes pw) 16,
      hexToBytes_bytesToHex _ fun b hb =>
        P.sha256_bytes pw b (List.mem_of_mem_take hb)]
  refine ⟨?_, ?_, hkey, ?_, hivfalse, ?_⟩
  · rw [hkey]
    exact hsha
  · rw [hkey]
    exact hmd5
  · unfold deriveKeyAndIVVariant
    simp only [if_true]
    rw [hexToBytes_bytesToHex _ (P.sha256_bytes pw),
      hexToBytes_bytesToHex _ (P.md5_bytes pw)]
  · rw [hivfalse]
    simp only [List.length_take, hsha]
    omega

/-- C5 counterexample.  With the toy suite (whose digests satisfy the
length contracts and differ), the browser branch of the part_000 variant
derives an iv that is not the parsed MD5 digest of the password: the iv
comes from the SHA-256 hex prefix instead, refuting the claim that
deriveKeyAndIV always returns an MD5-derived iv. -/
theorem claim5_counterexample :
    (deriveKeyAndIVVariant toyPrims false "").2
      ≠ hexToBytes (bytesToHex (toyPrims.md5 "")) := by
  decide

/-- C5 witness: the amended statement at the empty password and the toy
suite. -/
theorem claim5_witness :
    (deriveKeyAndIVM toyPrims "").1.length = 32
      ∧ (deriveKeyAndIVM toyPrims "").2.length = 16 :=
  ⟨(claim5_deriveKeyAndIV_amended toyPrims "").1,
    (claim5_deriveKeyAndIV_amended toyPrims "").2.1⟩

/-- C6.  After a successful decode and AES decryption, decrypt consults
the decompressor exactly when the decrypted bytes begin with the three
bytes 1F 8B 08 that isLikelyGzipped tests (the gzip magic plus the
deflate method byte): in that case the result is the cleaned output of
the decompression attempt (with its fallback), and the early UTF-8 path
can never fire because a 1F 8B prefix is malformed UTF-8; when the prefix
is absent the result is textOnlyResult, a function that performs no
decompression at all. -/
theorem claim6_gzip_heuristic (P : Prims) (tok : List Char) (pw : String)
    (hex : List Char) (h : base62Decode tok = .ok hex) :
    (isLikelyGzipped (P.aesDec (deriveKeyAndIVM P pw).1
        (deriveKeyAndIVM P pw).2 (hexToBytes hex)) = true →
      decryptM P tok pw = .ok (cleanDecryptedData
        ((decompressData P (P.aesDec (deriveKeyAndIVM P pw).1
            (deriveKeyAndIVM P pw).2 (hexToBytes hex))).getD
          (latin1OfBytes (P.aesDec (deriveKeyAndIVM P pw).1
            (deriveKeyAndIVM P pw).2 (hexToBytes hex))))))
    ∧ (isLikelyGzipped (P.aesDec (deriveKeyAndIVM P pw).1
        (deriveKeyAndIVM P pw).2 (hexToBytes hex)) = false →
      decryptM P tok pw = .ok (textOnlyResult
        (P.aesDec (deriveKeyAndIVM P pw).1 (deriveKeyAndIVM P pw).2
          (hexToBytes hex)))) := by
  have hD := decryptM_of_ok P tok pw hex h
  constructor
  · intro hm
    rw [hD, utf8Dec_of_magic _ hm]
    exact decryptTail_magic P _ hm
  · intro hm
    rw [hD]
    cases hu : utf8Dec (P.aesDec (deriveKeyAndIVM P pw).1
        (deriveKeyAndIVM P pw).2 (hexToBytes hex)) with
    | none =>
      show decryptTail P _ = _
      rw [decryptTail_nomagic P _ hm]
      unfold textOnlyResult
      rw [hu]
    | some r =>
      show (if r.length > 0
          then Except.ok (cleanDecryptedData r)
          else decryptTail P (P.aesDec (deriveKeyAndIVM P pw).1
            (deriveKeyAndIVM P pw).2 (hexToBytes hex))) = _
      unfold textOnlyResult
      rw [hu]
      by_cases hr : r.length > 0
      · rw [if_pos hr]
        show _ = Except.ok (if r.length > 0
          then cleanDecryptedData r
          else cleanDecryptedData (latin1OfBytes (P.aesDec
            (deriveKeyAndIVM P pw).1 (deriveKeyAndIVM P pw).2
            (hexToBytes hex))))
        rw [if_pos hr]
      · rw [if_neg hr, decryptTail_nomagic P _ hm]
        show _ = Except.ok (if r.length > 0
          then cleanDecryptedData r
          else cleanDecryptedData (latin1OfBytes (P.aesDec
            (deriveKeyAndIVM P pw).1 (deriveKeyAndIVM P pw).2
            (hexToBytes hex))))
        rw [if_neg hr]

/-- C6 witness: both directions at concrete tokens with the toy suite —
tokC2 decodes to gzip-looking bytes (decompression consulted), while the
token of the bytes 61 01 decodes to non-gzip bytes (text path). -/
theorem claim6_witness :
    decryptM toyPrims tokC2 "pw" = .ok (cleanDecryptedData
        ((decompressData toyPrims (toyPrims.aesDec
            (deriveKeyAndIVM toyPrims "pw").1 (deriveKeyAndIVM toyPrims "pw").2
            (hexToBytes ((base62Decode tokC2).toOption.getD [])))).getD
          (latin1OfBytes (toyPrims.aesDec (deriveKeyAndIVM toyPrims "pw").1
            (deriveKeyAndIVM toyPrims "pw").2
            (hexToBytes ((base62Decode tokC2).toOption.getD []))))))
      ∧ decryptM toyPrims ((base62Encode [97, 1]).getD []) ""
        = .ok (textOnlyResult (toyPrims.aesDec
            (deriveKeyAndIVM toyPrims "").1 (deriveKeyAndIVM toyPrims "").2
            (hexToBytes ((base62Decode ((base62Encode [97, 1]).getD [])).toOption.getD [])))) :=
  ⟨(claim6_gzip_heuristic toyPrims tokC2 "pw"
      ((base62Decode tokC2).toOption.getD []) (by decide)).1 (by decide),
    (claim6_gzip_heuristic toyPrims ((base62Encode [97, 1]).getD []) ""
      ((base62Decode ((base62Encode [97, 1]).getD [])).toOption.getD [])
      (by decide)).2 (by decide)⟩

/-- C7 (amended).  For every NONEMPTY byte input, base62 encoding
succeeds with a nonempty string over the 62-character alphabet, built by
the repeated division loop, and an input consisting entirely of zero
bytes yields the literal single character 0.  For the empty byte input,
however, the encoder fails — python int of an empty hex dump raises —
rather than producing a string, which is the one correction to the claim
as stated. -/
theorem claim7_base62Encode_amended (bytes : List Nat)
    (hb : ∀ b ∈ bytes, b < 256) (hne : bytes ≠ []) :
    ∃ out, base62Encode bytes = some out
      ∧ out ≠ []
      ∧ (∀ c ∈ out, c ∈ chars62)
      ∧ ((∀ b ∈ bytes, b = 0) → out = ['0']) := by
  rw [base62Encode_eq bytes hb hne]
  by_cases hd : b62digits (beVal bytes) (beVal bytes) = []
  · refine ⟨['0'], by rw [if_pos hd], by simp, ?_, fun _ => rfl⟩
    intro c hc
    rcases List.mem_cons.1 hc with rfl | hc2
    · decide
    · simp at hc2
  · refine ⟨b62digits (beVal bytes) (beVal bytes), by rw [if_neg hd], hd,
      b62digits_mem _ _, ?_⟩
    intro hzero
    exfalso
    rw [beVal_all_zero bytes hzero] at hd
    exact hd (b62digits_zero 0)

/-- C7 counterexample.  On the empty byte sequence (an input all of whose
bytes are vacuously zero) the encoder produces no string at all: the hex
dump is empty and python int of an empty string raises, so the claim's
promise of an alphabet-matching output for every byte-sequence input
fails. -/
theorem claim7_counterexample : base62Encode [] = none := by
  decide

/-- C7 witness: the amended statement at the all-zero two-byte input. -/
theorem claim7_witness :
    ∃ out, base62Encode [0, 0] = some out
      ∧ out ≠ []
      ∧ (∀ c ∈ out, c ∈ chars62)
      ∧ ((∀ b ∈ ([0, 0] : List Nat), b = 0) → out = ['0']) :=
  claim7_base62Encode_amended [0, 0] (by decide) (by decide)

/-- C8.  Both pipeline directions are deterministic pure functions of
their arguments: two calls with identical plaintext and password (or
identical token and password) produce identical results, for every
primitive suite — in the embedding no randomness, salt, or hidden state
exists to consult, and key and iv are derived from the password alone.
The file-encryption variant is deterministic in the same two-run sense
once ALL of its inputs are identical: its gzip header stores the
operand's name and mtime, so those count among the arguments — two runs
on the same unmodified file with the same password yield the same
token. -/
theorem claim8_determinism :
    (∀ (P : Prims) (p1 p2 : List Char) (pw1 pw2 : String),
      p1 = p2 → pw1 = pw2 → encryptM P p1 pw1 = encryptM P p2 pw2)
    ∧ (∀ (P : Prims) (t1 t2 : List Char) (pw1 pw2 : String),
      t1 = t2 → pw1 = pw2 → decryptM P t1 pw1 = decryptM P t2 pw2)
    ∧ (∀ (P : Prims) (n1 n2 : String) (m1 m2 : Nat) (f1 f2 : List Nat)
        (pw1 pw2 : String),
      n1 = n2 → m1 = m2 → f1 = f2 → pw1 = pw2 →
      encryptFileM P n1 m1 f1 pw1 = encryptFileM P n2 m2 f2 pw2) :=
  ⟨fun _ _ _ _ _ hp hpw => by rw [hp, hpw],
    fun _ _ _ _ _ ht hpw => by rw [ht, hpw],
    fun _ _ _ _ _ _ _ _ _ hn hm hf hpw => by rw [hn, hm, hf, hpw]⟩

/-- C8 witness: two-run equality at concrete arguments with the toy
suite, for the text direction, the decrypt direction and the file
variant (same name, mtime, bytes and password). -/
theorem claim8_witness :
    encryptM toyPrims ['H', 'i'] "pw" = encryptM toyPrims ['H', 'i'] "pw"
      ∧ decryptM toyPrims tokC2 "pw" = decryptM toyPrims tokC2 "pw"
      ∧ encryptFileM toyPrims "a.txt" 3 [97, 98] "pw"
        = encryptFileM toyPrims "a.txt" 3 [97, 98] "pw" :=
  ⟨claim8_determinism.1 toyPrims ['H', 'i'] ['H', 'i'] "pw" "pw" rfl rfl,
    claim8_determinism.2.1 toyPrims tokC2 tokC2 "pw" "pw" rfl rfl,
    claim8_determinism.2.2 toyPrims "a.txt" "a.txt" 3 3 [97, 98] [97, 98]
      "pw" "pw" rfl rfl rfl rfl⟩

/-- C9.  A leading 0 character contributes nothing to the decoded value:
prepending it leaves base62Decode unchanged on any token over the
alphabet, so the decoder is not injective (00 and 0 are distinct tokens
with equal decodings) and tokens have no enforced canonical form. -/
theorem claim9_leading_zero :
    (∀ s : List Char, (∀ c ∈ s, c ∈ chars62) →
      base62Decode ('0' :: s) = base62Decode s)
    ∧ base62Decode ['0', '0'] = base62Decode ['0']
    ∧ (['0', '0'] : List Char) ≠ ['0'] := by
  refine ⟨fun s _ => ?_, by decide, by decide⟩
  unfold base62Decode
  have h0 : idxOfChar chars62 '0' = some 0 := by decide
  simp only [base62DecodeNat, h0]

/-- C9 witness: the leading-zero identity applied at a concrete token. -/
theorem claim9_witness :
    base62Decode ('0' :: ['Z', 'z']) = base62Decode ['Z', 'z'] :=
  claim9_leading_zero.1 ['Z', 'z'] (by decide)

/-- C10.  Every string decrypt returns has passed through
cleanDecryptedData, so no returned text contains NUL or a control
character of the stripped ranges 01-08, 0B, 0C, 0E-1F, for any token,
password and primitive suite. -/
theorem claim10_clean_output (P : Prims) (tok : List Char) (pw : String)
    (r : List Char) (h : decryptM P tok pw = .ok r) :
    ∀ c ∈ r, strippedB c = false := by
  cases hb : base62Decode tok with
  | error e =>
    rw [decryptM_of_error P tok pw e hb] at h
    exact absurd h (by simp)
  | ok hex =>
    rw [decryptM_of_ok P tok pw hex hb] at h
    cases hu : utf8Dec (P.aesDec (deriveKeyAndIVM P pw).1
        (deriveKeyAndIVM P pw).2 (hexToBytes hex)) with
    | some r0 =>
      rw [hu] at h
      have h2 : (if r0.length > 0
            then Except.ok (cleanDecryptedData r0)
            else decryptTail P (P.aesDec (deriveKeyAndIVM P pw).1
              (deriveKeyAndIVM P pw).2 (hexToBytes hex)))
          = Except.ok r := h
      by_cases hr : r0.length > 0
      · rw [if_pos hr] at h2
        cases h2
        exact cleanDecryptedData_no_stripped r0
      · rw [if_neg hr] at h2
        by_cases hm : isLikelyGzipped (P.aesDec (deriveKeyAndIVM P pw).1
            (deriveKeyAndIVM P pw).2 (hexToBytes hex)) = true
        · rw [decryptTail_magic P _ hm] at h2
          cases h2
          exact cleanDecryptedData_no_stripped _
        · rw [decryptTail_nomagic P _ (by simpa using hm)] at h2
          cases h2
          exact cleanDecryptedData_no_stripped _
    | none =>
      rw [hu] at h
      have h2 : decryptTail P (P.aesDec (deriveKeyAndIVM P pw).1
          (deriveKeyAndIVM P pw).2 (hexToBytes hex)) = Except.ok r := h
      by_cases hm : isLikelyGzipped (P.aesDec (deriveKeyAndIVM P pw).1
          (deriveKeyAndIVM P pw).2 (hexToBytes hex)) = true
      · rw [decryptTail_magic P _ hm] at h2
        cases h2
        exact cleanDecryptedData_no_stripped _
      · rw [decryptTail_nomagic P _ (by simpa using hm)] at h2
        cases h2
        exact cleanDecryptedData_no_stripped _

/-- C10 witness: a concrete decrypt result contains no stripped
character (here the decode of the token of the bytes 61 01, whose
result is the single character a). -/
theorem claim10_witness : strippedB 'a' = false :=
  claim10_clean_output toyPrims ((base62Encode [97, 1]).getD []) "" ['a']
    (by decide) 'a' (by decide)
